import Mathlib

/-!
# Cuckoo filter (`filter.go`): shallow embedding and verified properties

The Go package keeps a fixed array of `NumBuckets` buckets of `BucketSize`
one-byte fingerprints, a running `Count` and a private flag recording that the
filter was produced by `UnsafeUnmarshalBinary`.

Modelling conventions.

* `byte` is `Fin 256`; `uint` is a natural number reduced modulo `2 ^ 64`
  (the `amd64` target named in the benchmark header of `filter_test.go`).
* A fixed-size Go array `[n]T` is a function `Fin n → T`; a byte slice is its
  length together with its contents by index.
* `math/rand` is an explicit stream of naturals with a cursor; `Intn n`
  reads the next element reduced modulo `n` and advances the cursor.
* Pointer-receiver methods return the updated receiver next to their result.
* A Go `panic` and a returned `error` are the `Except.error` branch.
-/

namespace Cuckoo

/-! ## Constants and data model -/

/-- Go constant `BucketSize`. -/
abbrev BucketSize : Nat := 4

/-- Go constant `NumBuckets`. -/
abbrev NumBuckets : Nat := 524288

/-- Go constant `MaxInsertionAttempts`. -/
abbrev MaxInsertionAttempts : Nat := 500

/-- Modulus of Go's `uint` on a 64-bit target. -/
abbrev uintMod : Nat := 2 ^ 64

/-- Go `byte`. -/
abbrev Byte := Fin 256

/-- Go `type Hash [32]byte`. -/
abbrev Hash := Fin 32 → Byte

/-- Go `type Bucket [BucketSize]byte`. -/
abbrev Bucket := Fin BucketSize → Byte

/-- Go `[NumBuckets]Bucket`. -/
abbrev Buckets := Fin NumBuckets → Bucket

/-- Go `type Filter struct`; the private field `unsafe` is `isUnsafe`. -/
structure Filter where
  Buckets : Buckets
  Count : Nat
  isUnsafe : Bool

/-- A Go `[]byte`: its length and its contents by index. -/
structure ByteSlice where
  len : Nat
  get : Fin len → Byte

/-- The state of the `math/rand` source: a stream of draws and a cursor. -/
structure Rand where
  stream : Nat → Nat
  pos : Nat

/-- Go `rand.Intn(n)` for `0 < n`: the next draw, in `[0, n)`. -/
def Rand.Intn (r : Rand) (n : Nat) (hn : 0 < n) : Fin n × Rand :=
  (⟨r.stream r.pos % n, Nat.mod_lt _ hn⟩, { r with pos := r.pos + 1 })

/-! ## Array updates -/

/-- The assignment `b[s] = v` on a bucket. -/
def Bucket.set (b : Bucket) (s : Fin BucketSize) (v : Byte) : Bucket :=
  fun t => if t = s then v else b t

/-- The assignment `B[k] = b` on the bucket array. -/
def setBucket (B : Buckets) (k : Fin NumBuckets) (b : Bucket) : Buckets :=
  fun k' => if k' = k then b else B k'

/-- The assignment `B[k][s] = v` on the bucket array. -/
def setSlot (B : Buckets) (k : Fin NumBuckets) (s : Fin BucketSize) (v : Byte) : Buckets :=
  setBucket B k ((B k).set s v)

/-! ## Bucket operations -/

/-- The loop `for i, stored := range b` stopped at the first slot equal to
`val`: the lowest such index, if any. -/
def Bucket.firstSlot (b : Bucket) (val : Byte) : Option (Fin BucketSize) :=
  Fin.find (fun i => b i = val)

/-- Go `(*Bucket).Insert`: stores `val` in the first slot holding `0`. -/
def Bucket.Insert (b : Bucket) (val : Byte) : Bucket × Bool :=
  match b.firstSlot 0 with
  | some i => (b.set i val, true)
  | none => (b, false)

/-- Go `(*Bucket).Delete`: zeroes the first slot holding `val`. -/
def Bucket.Delete (b : Bucket) (val : Byte) : Bucket × Bool :=
  match b.firstSlot val with
  | some i => (b.set i 0, true)
  | none => (b, false)

/-- Go `(*Bucket).IndexOf`: the first index holding `val`, or `-1`. -/
def Bucket.IndexOf (b : Bucket) (val : Byte) : Int :=
  match b.firstSlot val with
  | some i => (i.val : Int)
  | none => -1

/-! ## Hashing -/

/-- Go `jenkins` on a 64-bit `uint`: every sum and left shift wraps. -/
def jenkins (a : Nat) : Nat :=
  let a := ((a + 0x7ed55d16) % uintMod + (a <<< 12) % uintMod) % uintMod
  let a := (a ^^^ 0xc761c23c) ^^^ (a >>> 19)
  let a := ((a + 0x165667b1) % uintMod + (a <<< 5) % uintMod) % uintMod
  let a := ((a + 0xd3a2646c) % uintMod) ^^^ ((a <<< 9) % uintMod)
  let a := ((a + 0xfd7046c5) % uintMod + (a <<< 3) % uintMod) % uintMod
  let a := (a ^^^ 0xb55a4f09) ^^^ (a >>> 16)
  a

/-- Go `binary.BigEndian.Uint64` on the eight bytes starting at `off`. -/
def bigEndianUint64 (id : Hash) (off : Nat) (h : off + 8 ≤ 32) : Nat :=
  (id ⟨off + 7, by omega⟩).val ||| (id ⟨off + 6, by omega⟩).val <<< 8 |||
  (id ⟨off + 5, by omega⟩).val <<< 16 ||| (id ⟨off + 4, by omega⟩).val <<< 24 |||
  (id ⟨off + 3, by omega⟩).val <<< 32 ||| (id ⟨off + 2, by omega⟩).val <<< 40 |||
  (id ⟨off + 1, by omega⟩).val <<< 48 ||| (id ⟨off, by omega⟩).val <<< 56

/-- The index expression `(i ^ jenkins(uint(val))) % NumBuckets`. -/
def alt (i : Fin NumBuckets) (val : Byte) : Fin NumBuckets :=
  ⟨(i.val ^^^ jenkins val.val) % NumBuckets, Nat.mod_lt _ (by decide)⟩

/-- The fingerprint `byte(binary.BigEndian.Uint64(id[0:8])%255 + 1)`. -/
def fingerprint (id : Hash) : Byte :=
  ⟨(bigEndianUint64 id 0 (by decide) % 255 + 1) % 256, Nat.mod_lt _ (by decide)⟩

/-- The index `uint(binary.BigEndian.Uint64(id[8:16])) % NumBuckets`. -/
def primary (id : Hash) : Fin NumBuckets :=
  ⟨(bigEndianUint64 id 8 (by decide) % uintMod) % NumBuckets, Nat.mod_lt _ (by decide)⟩

/-- Go `process`: the fingerprint and the two candidate bucket indices. -/
def process (id : Hash) : Byte × Fin NumBuckets × Fin NumBuckets :=
  let val := fingerprint id
  let a := primary id
  let b := alt a val
  (val, a, b)

/-! ## Filter operations -/

/-- Go `NewFilter`: the zero value of `Filter`. -/
def NewFilter : Filter :=
  { Buckets := fun _ _ => 0, Count := 0, isUnsafe := false }

/-- Go `(*Filter).Reset`: assigns `Buckets` and `Count`, nothing else. -/
def Filter.Reset (f : Filter) : Filter :=
  { f with Buckets := fun _ _ => 0, Count := 0 }

/-- Go `(*Filter).Lookup`. -/
def Filter.Lookup (f : Filter) (id : Hash) : Bool :=
  let val := (process id).1
  let a := (process id).2.1
  let b := (process id).2.2
  decide ((f.Buckets a).IndexOf val > -1) || decide ((f.Buckets b).IndexOf val > -1)

/-- The eviction loop of `(*Filter).Insert` with `n` attempts left: the hand
`val` is swapped with slot `j` of bucket `i`, and the evicted fingerprint is
offered to the bucket `(i ^ jenkins(val)) % NumBuckets`. -/
def evict : Nat → Buckets → Byte → Fin NumBuckets → Rand → Bool × Buckets × Rand
  | 0, B, _, _, r => (false, B, r)
  | n + 1, B, val, i, r =>
    let draw := r.Intn BucketSize (by decide)
    let j := draw.1
    let val1 := B i j
    let B1 := setSlot B i j val
    let i1 := alt i val1
    let res := (B1 i1).Insert val1
    let B2 := setBucket B1 i1 res.1
    if res.2 then (true, B2, draw.2) else evict n B2 val1 i1 draw.2

/-- Go `(*Filter).Insert`; `Count++` wraps on `uint`. -/
def Filter.Insert (f : Filter) (id : Hash) (r : Rand) : Bool × Filter × Rand :=
  let val := (process id).1
  let a := (process id).2.1
  let b := (process id).2.2
  if (f.Buckets a).IndexOf val > -1 ∨ (f.Buckets b).IndexOf val > -1 then
    (false, f, r)
  else
    let resA := (f.Buckets a).Insert val
    let Ba := setBucket f.Buckets a resA.1
    if resA.2 then
      (true, { f with Buckets := Ba, Count := (f.Count + 1) % uintMod }, r)
    else
      let resB := (Ba b).Insert val
      let Bb := setBucket Ba b resB.1
      if resB.2 then
        (true, { f with Buckets := Bb, Count := (f.Count + 1) % uintMod }, r)
      else
        let coin := r.Intn 2 (by decide)
        let i := if coin.1.val = 0 then b else a
        let res := evict MaxInsertionAttempts Bb val i coin.2
        if res.1 then
          (true, { f with Buckets := res.2.1, Count := (f.Count + 1) % uintMod }, res.2.2)
        else
          (false, { f with Buckets := res.2.1 }, res.2.2)

/-- Go `(*Filter).Delete`; `Count--` wraps on `uint`. -/
def Filter.Delete (f : Filter) (id : Hash) : Bool × Filter :=
  let val := (process id).1
  let a := (process id).2.1
  let b := (process id).2.2
  let resA := (f.Buckets a).Delete val
  let Ba := setBucket f.Buckets a resA.1
  if resA.2 then
    (true, { f with Buckets := Ba, Count := (f.Count + uintMod - 1) % uintMod })
  else
    let resB := (Ba b).Delete val
    let Bb := setBucket Ba b resB.1
    if resB.2 then
      (true, { f with Buckets := Bb, Count := (f.Count + uintMod - 1) % uintMod })
    else
      (false, { f with Buckets := Bb })

/-! ## Serialization -/

/-- The text of the error returned for a buffer of the wrong length. -/
def sizeError (n : Nat) : String :=
  "must be " ++ toString (NumBuckets * BucketSize) ++ " bytes, but got " ++ toString n ++ " bytes"

/-- The text of the panic raised by `MarshalBinary`. -/
def remarshalPanic : String :=
  "attempted to re-marshal an unsafely unmarshaled cuckoo filter"

/-- Modelled from the spec: `CountNonzeroBytes` is called by `UnmarshalBinary`
but defined outside `filter.go`; the safe decode "recomputes Count by scanning
the entire buffer and counting nonzero bytes". -/
def CountNonzeroBytes (buf : ByteSlice) : Nat :=
  (Finset.univ.filter (fun i => buf.get i ≠ 0)).card

/-- The read `*(*[NumBuckets]Bucket)(unsafe.Pointer(ptr))`: the buffer seen as
the bucket array, slot `s` of bucket `k` being byte `k * BucketSize + s`. -/
def bucketsOf (buf : ByteSlice) (h : buf.len = NumBuckets * BucketSize) : Buckets :=
  fun k s => buf.get ⟨k.val * BucketSize + s.val, by
    have hk : k.val < 524288 := k.isLt
    have hs : s.val < 4 := s.isLt
    have hl : buf.len = 524288 * 4 := h
    show k.val * 4 + s.val < buf.len
    omega⟩

/-- The bytes of the bucket array, bucket after bucket (the slice header that
`MarshalBinary` points at `f.Buckets`). -/
def bytesOf (B : Buckets) : ByteSlice :=
  { len := NumBuckets * BucketSize
    get := fun i =>
      B ⟨i.val / BucketSize, by
          have hi : i.val < 524288 * 4 := i.isLt
          show i.val / 4 < 524288
          omega⟩
        ⟨i.val % BucketSize, Nat.mod_lt _ (by decide)⟩ }

/-- Go `UnsafeUnmarshalBinary`. -/
def UnsafeUnmarshalBinary (buf : ByteSlice) : Except String Filter :=
  if h : buf.len ≠ NumBuckets * BucketSize then
    .error (sizeError buf.len)
  else
    .ok { Buckets := bucketsOf buf (Decidable.of_not_not h), Count := 0, isUnsafe := true }

/-- Go `UnmarshalBinary`. -/
def UnmarshalBinary (buf : ByteSlice) : Except String Filter :=
  if h : buf.len ≠ NumBuckets * BucketSize then
    .error (sizeError buf.len)
  else
    let count := CountNonzeroBytes buf
    .ok { Buckets := bucketsOf buf (Decidable.of_not_not h), Count := count, isUnsafe := false }

/-- Go `(*Filter).MarshalBinary`; the panic is the `error` branch. -/
def Filter.MarshalBinary (f : Filter) : Except String ByteSlice :=
  if f.isUnsafe then .error remarshalPanic else .ok (bytesOf f.Buckets)

/-! ## Call sequences -/

/-- A call of one of the mutating methods of `Filter`. -/
inductive Call where
  | insert (id : Hash)
  | delete (id : Hash)
  | reset

/-- A filter in use: the filter, the random source, and how many `Insert` and
`Delete` calls have returned `true` so far. -/
structure Session where
  filter : Filter
  rand : Rand
  inserted : Nat
  deleted : Nat

/-- The session that starts on filter `f` with random source `r`. -/
def Session.start (f : Filter) (r : Rand) : Session :=
  { filter := f, rand := r, inserted := 0, deleted := 0 }

/-- One call on a session. -/
def Session.step (s : Session) : Call → Session
  | .insert id =>
    let res := s.filter.Insert id s.rand
    { s with
      filter := res.2.1, rand := res.2.2,
      inserted := if res.1 then s.inserted + 1 else s.inserted }
  | .delete id =>
    let res := s.filter.Delete id
    { s with filter := res.2, deleted := if res.1 then s.deleted + 1 else s.deleted }
  | .reset => { s with filter := s.filter.Reset }

/-- A sequence of calls on a session, in order. -/
def Session.run (s : Session) (cs : List Call) : Session :=
  cs.foldl Session.step s

/-- The call is an `Insert` or a `Delete`. -/
def Call.isInsertOrDelete : Call → Bool
  | .insert _ => true
  | .delete _ => true
  | .reset => false

/-! ## Notions used in the statements -/

/-- The fingerprint `val` sits in bucket `a` or in bucket `b`. -/
def present (B : Buckets) (val : Byte) (a b : Fin NumBuckets) : Prop :=
  (∃ s, B a s = val) ∨ (∃ s, B b s = val)

/-- The number of slots of the bucket array that hold a nonzero byte. -/
def occupied (B : Buckets) : Nat :=
  (Finset.univ.filter (fun p : Fin NumBuckets × Fin BucketSize => B p.1 p.2 ≠ 0)).card


/-! ## Concrete inputs -/

/-- The id with every byte `0`: fingerprint `1`, primary bucket `0`. -/
def idZero : Hash := fun _ => 0

/-- The id with byte 7 equal to `6` and every other byte `0`: fingerprint `7`,
primary bucket `0`. -/
def idSeven : Hash := fun k => if k.val = 7 then 6 else 0

/-- The random source whose every draw is `0`. -/
def randZero : Rand := { stream := fun _ => 0, pos := 0 }

/-- A filter whose buckets `0` and `33206` (the two candidates of `idZero`) are
full of the fingerprint `7`, every other bucket being empty. -/
def crowded : Filter :=
  { Buckets := fun k _ => if k.val = 0 ∨ k.val = 33206 then 7 else 0
    Count := 8
    isUnsafe := false }

/-- A buffer of `n` bytes, all `0`. -/
def zeroBytes (n : Nat) : ByteSlice := { len := n, get := fun _ => 0 }

/-- A buffer of the valid length whose first byte is `1`, the others `0`. -/
def oneThenZeros : ByteSlice :=
  { len := NumBuckets * BucketSize, get := fun i => if i.val = 0 then 1 else 0 }

/-- The filter `UnsafeUnmarshalBinary` builds from `oneThenZeros`. -/
def viewOfOne : Filter :=
  { Buckets := bucketsOf oneThenZeros rfl, Count := 0, isUnsafe := true }

/-- The filter `UnsafeUnmarshalBinary` builds from the all-zero buffer. -/
def viewOfZeros : Filter :=
  { Buckets := bucketsOf (zeroBytes (NumBuckets * BucketSize)) rfl, Count := 0, isUnsafe := true }

/-- The Jenkins 6-step integer mix in 32-bit arithmetic, as the docstring of
`Insert` names it ("a 32-bit Jenkins hash"): the steps of `jenkins` with every
addition and left shift reduced modulo `2 ^ 32`. -/
def jenkins32 (a : Nat) : Nat :=
  let a := ((a + 0x7ed55d16) % 2 ^ 32 + (a <<< 12) % 2 ^ 32) % 2 ^ 32
  let a := (a ^^^ 0xc761c23c) ^^^ (a >>> 19)
  let a := ((a + 0x165667b1) % 2 ^ 32 + (a <<< 5) % 2 ^ 32) % 2 ^ 32
  let a := ((a + 0xd3a2646c) % 2 ^ 32) ^^^ ((a <<< 9) % 2 ^ 32)
  let a := ((a + 0xfd7046c5) % 2 ^ 32 + (a <<< 3) % 2 ^ 32) % 2 ^ 32
  let a := (a ^^^ 0xb55a4f09) ^^^ (a >>> 16)
  a

/-- The alternate bucket index `(i ^ mix(val)) % NumBuckets` that an
implementation with the 32-bit mix computes. -/
def alt32 (i : Fin NumBuckets) (val : Byte) : Fin NumBuckets :=
  ⟨(i.val ^^^ jenkins32 val.val) % NumBuckets, Nat.mod_lt _ (by decide)⟩

/-- The id with byte 7 equal to `8`, bytes 14 and 15 equal to `129` and `182`
and every other byte `0`: fingerprint `9`, primary bucket `33206`. -/
def idNine : Hash :=
  fun k => if k.val = 7 then 8 else if k.val = 14 then 129 else if k.val = 15 then 182 else 0

/-- The id that is `idZero` on bytes 0 to 15 and `255` on bytes 16 to 31. -/
def idZeroTail : Hash := fun k => if k.val < 16 then 0 else 255

/-- A filter whose every slot holds the fingerprint `7`. -/
def allSeven : Filter :=
  { Buckets := fun _ _ => 7, Count := 2097152, isUnsafe := false }

/-- A filter whose every slot holds the fingerprint `7`, except slot 0 of
bucket `33206`, which holds the fingerprint `9` of `idNine`. -/
def sevensAndNine : Filter :=
  { Buckets := fun k s => if k.val = 33206 ∧ s.val = 0 then 9 else 7
    Count := 2097152
    isUnsafe := false }

/-- The bucket `[7, 0, 7, 0]`. -/
def gappedBucket : Bucket := fun s => if s.val = 0 ∨ s.val = 2 then 7 else 0

/-! ## Buckets and array updates -/

theorem firstSlot_eq_some {b : Bucket} {v : Byte} {i : Fin BucketSize} :
    b.firstSlot v = some i ↔ b i = v ∧ ∀ t, b t = v → i ≤ t := by
  unfold Bucket.firstSlot
  exact Fin.find_eq_some_iff

theorem firstSlot_eq_none {b : Bucket} {v : Byte} :
    b.firstSlot v = none ↔ ∀ t, b t ≠ v := by
  unfold Bucket.firstSlot
  exact Fin.find_eq_none_iff

theorem firstSlot_isSome {b : Bucket} {v : Byte} :
    (∃ i, b.firstSlot v = some i) ↔ ∃ t, b t = v := by
  constructor
  · rintro ⟨i, hi⟩
    exact ⟨i, (firstSlot_eq_some.1 hi).1⟩
  · rintro ⟨t, ht⟩
    cases h : b.firstSlot v with
    | none => exact absurd ht (firstSlot_eq_none.1 h t)
    | some i => exact ⟨i, rfl⟩

theorem IndexOf_gt {b : Bucket} {v : Byte} : b.IndexOf v > -1 ↔ ∃ t, b t = v := by
  unfold Bucket.IndexOf
  cases h : b.firstSlot v with
  | none =>
    simp only [gt_iff_lt, lt_self_iff_false, false_iff, not_exists]
    exact firstSlot_eq_none.1 h
  | some i =>
    have h1 : (-1 : Int) < (i.val : Int) := by omega
    simp only [gt_iff_lt, h1, true_iff]
    exact ⟨i, (firstSlot_eq_some.1 h).1⟩

theorem Insert_ok {b b1 : Bucket} {v : Byte} (h : b.Insert v = (b1, true)) :
    ∃ s, b s = 0 ∧ (∀ t, b t = 0 → s ≤ t) ∧ b1 = b.set s v := by
  unfold Bucket.Insert at h
  cases hs : b.firstSlot 0 with
  | none => rw [hs] at h; simp at h
  | some s =>
    rw [hs] at h
    simp only [Prod.mk.injEq, and_true] at h
    exact ⟨s, (firstSlot_eq_some.1 hs).1, (firstSlot_eq_some.1 hs).2, h.symm⟩

theorem Insert_fail {b b1 : Bucket} {v : Byte} (h : b.Insert v = (b1, false)) :
    b1 = b ∧ ∀ t, b t ≠ 0 := by
  unfold Bucket.Insert at h
  cases hs : b.firstSlot 0 with
  | none =>
    rw [hs] at h
    simp only [Prod.mk.injEq, and_true] at h
    exact ⟨h.symm, firstSlot_eq_none.1 hs⟩
  | some s => rw [hs] at h; simp at h

theorem Delete_ok {b b1 : Bucket} {v : Byte} (h : b.Delete v = (b1, true)) :
    ∃ s, b s = v ∧ (∀ t, b t = v → s ≤ t) ∧ b1 = b.set s 0 := by
  unfold Bucket.Delete at h
  cases hs : b.firstSlot v with
  | none => rw [hs] at h; simp at h
  | some s =>
    rw [hs] at h
    simp only [Prod.mk.injEq, and_true] at h
    exact ⟨s, (firstSlot_eq_some.1 hs).1, (firstSlot_eq_some.1 hs).2, h.symm⟩

theorem Delete_fail {b b1 : Bucket} {v : Byte} (h : b.Delete v = (b1, false)) :
    b1 = b ∧ ∀ t, b t ≠ v := by
  unfold Bucket.Delete at h
  cases hs : b.firstSlot v with
  | none =>
    rw [hs] at h
    simp only [Prod.mk.injEq, and_true] at h
    exact ⟨h.symm, firstSlot_eq_none.1 hs⟩
  | some s => rw [hs] at h; simp at h

theorem setBucket_self (B : Buckets) (k : Fin NumBuckets) : setBucket B k (B k) = B := by
  funext k'
  unfold setBucket
  split
  · next h => rw [h]
  · rfl

theorem setBucket_same (B : Buckets) (k : Fin NumBuckets) (b : Bucket) :
    setBucket B k b k = b := by
  simp [setBucket]

theorem setBucket_other (B : Buckets) {k k' : Fin NumBuckets} (b : Bucket) (h : k' ≠ k) :
    setBucket B k b k' = B k' := by
  simp [setBucket, h]

theorem setSlot_apply (B : Buckets) (k k' : Fin NumBuckets) (s s' : Fin BucketSize) (v : Byte) :
    setSlot B k s v k' s' = if k' = k ∧ s' = s then v else B k' s' := by
  unfold setSlot setBucket Bucket.set
  by_cases hk : k' = k
  · subst hk
    by_cases hs : s' = s <;> simp [hs]
  · simp [hk]

theorem setBucket_set (B : Buckets) (k : Fin NumBuckets) (s : Fin BucketSize) (v : Byte) :
    setBucket B k ((B k).set s v) = setSlot B k s v := rfl

theorem xor_mod_two_pow (a b n : Nat) : (a ^^^ b) % 2 ^ n = (a % 2 ^ n) ^^^ (b % 2 ^ n) := by
  apply Nat.eq_of_testBit_eq
  intro i
  simp only [Nat.testBit_mod_two_pow, Nat.testBit_xor]
  by_cases h : i < n <;> simp [h]

theorem xor_mod_xor_mod (x h n : Nat) (hx : x < 2 ^ n) :
    ((x ^^^ h) % 2 ^ n ^^^ h) % 2 ^ n = x := by
  rw [xor_mod_two_pow, Nat.mod_mod, xor_mod_two_pow, Nat.mod_eq_of_lt hx, Nat.xor_assoc,
    Nat.xor_self, Nat.xor_zero]

theorem alt_alt (i : Fin NumBuckets) (v : Byte) : alt (alt i v) v = i := by
  apply Fin.ext
  exact xor_mod_xor_mod i.val (jenkins v.val) 19 i.isLt

/-! ## Unfolding the filter operations -/

theorem process_eq (id : Hash) :
    process id = (fingerprint id, primary id, alt (primary id) (fingerprint id)) := rfl

theorem Lookup_iff (f : Filter) (id : Hash) :
    f.Lookup id = true ↔
      present f.Buckets (fingerprint id) (primary id) (alt (primary id) (fingerprint id)) := by
  unfold Filter.Lookup present
  simp only [process_eq, Bool.or_eq_true, decide_eq_true_eq, IndexOf_gt]

theorem evict_zero (B : Buckets) (val : Byte) (i : Fin NumBuckets) (r : Rand) :
    evict 0 B val i r = (false, B, r) := rfl

theorem evict_succ (n : Nat) (B : Buckets) (val : Byte) (i : Fin NumBuckets) (r : Rand) :
    evict (n + 1) B val i r =
      if ((setSlot B i (r.Intn BucketSize (by decide)).1 val
            (alt i (B i (r.Intn BucketSize (by decide)).1))).Insert
            (B i (r.Intn BucketSize (by decide)).1)).2 = true then
        (true,
          setBucket (setSlot B i (r.Intn BucketSize (by decide)).1 val)
            (alt i (B i (r.Intn BucketSize (by decide)).1))
            ((setSlot B i (r.Intn BucketSize (by decide)).1 val
              (alt i (B i (r.Intn BucketSize (by decide)).1))).Insert
              (B i (r.Intn BucketSize (by decide)).1)).1,
          (r.Intn BucketSize (by decide)).2)
      else
        evict n
          (setBucket (setSlot B i (r.Intn BucketSize (by decide)).1 val)
            (alt i (B i (r.Intn BucketSize (by decide)).1))
            ((setSlot B i (r.Intn BucketSize (by decide)).1 val
              (alt i (B i (r.Intn BucketSize (by decide)).1))).Insert
              (B i (r.Intn BucketSize (by decide)).1)).1)
          (B i (r.Intn BucketSize (by decide)).1)
          (alt i (B i (r.Intn BucketSize (by decide)).1))
          (r.Intn BucketSize (by decide)).2 := rfl

/-- The four ways through `Filter.Insert`. -/
theorem Insert_cases (f : Filter) (id : Hash) (r : Rand) (val : Byte) (a b : Fin NumBuckets)
    (hpr : process id = (val, a, b)) :
    (present f.Buckets val a b ∧ f.Insert id r = (false, f, r)) ∨
    (¬present f.Buckets val a b ∧ ∃ s, f.Buckets a s = 0 ∧ (∀ t, f.Buckets a t = 0 → s ≤ t) ∧
      f.Insert id r =
        (true, { f with Buckets := setSlot f.Buckets a s val,
                        Count := (f.Count + 1) % uintMod }, r)) ∨
    (¬present f.Buckets val a b ∧ (∀ t, f.Buckets a t ≠ 0) ∧
      ∃ s, f.Buckets b s = 0 ∧ (∀ t, f.Buckets b t = 0 → s ≤ t) ∧
      f.Insert id r =
        (true, { f with Buckets := setSlot f.Buckets b s val,
                        Count := (f.Count + 1) % uintMod }, r)) ∨
    (¬present f.Buckets val a b ∧ (∀ t, f.Buckets a t ≠ 0) ∧ (∀ t, f.Buckets b t ≠ 0) ∧
      ∃ i r1 ok B r2, (i = a ∨ i = b) ∧
        evict MaxInsertionAttempts f.Buckets val i r1 = (ok, B, r2) ∧
        f.Insert id r =
          (ok, { f with Buckets := B,
                        Count := if ok then (f.Count + 1) % uintMod else f.Count }, r2)) := by
  unfold Filter.Insert
  rw [hpr]
  simp only []
  by_cases hp : present f.Buckets val a b
  · left
    refine ⟨hp, ?_⟩
    have hg : (f.Buckets a).IndexOf val > -1 ∨ (f.Buckets b).IndexOf val > -1 := by
      simpa only [IndexOf_gt] using hp
    rw [if_pos hg]
  · right
    have hg : ¬((f.Buckets a).IndexOf val > -1 ∨ (f.Buckets b).IndexOf val > -1) := by
      simpa only [IndexOf_gt] using hp
    rw [if_neg hg]
    rcases hA : (f.Buckets a).Insert val with ⟨ba, okA⟩
    cases okA with
    | true =>
      left
      obtain ⟨s, hs0, hmin, hba⟩ := Insert_ok hA
      refine ⟨hp, s, hs0, hmin, ?_⟩
      rw [hba]
      rfl
    | false =>
      right
      obtain ⟨hba, hfullA⟩ := Insert_fail hA
      subst hba
      simp only [setBucket_self, Bool.false_eq_true, if_false]
      rcases hB : (f.Buckets b).Insert val with ⟨bb, okB⟩
      cases okB with
      | true =>
        left
        obtain ⟨s, hs0, hmin, hbb⟩ := Insert_ok hB
        refine ⟨hp, hfullA, s, hs0, hmin, ?_⟩
        rw [hbb]
        rfl
      | false =>
        right
        obtain ⟨hbb, hfullB⟩ := Insert_fail hB
        subst hbb
        refine ⟨hp, hfullA, hfullB, ?_⟩
        simp only [setBucket_self, Bool.false_eq_true, if_false]
        rcases hE : evict MaxInsertionAttempts f.Buckets val
            (if (r.Intn 2 (by decide)).1.val = 0 then b else a) (r.Intn 2 (by decide)).2
          with ⟨ok, B, r2⟩
        refine ⟨_, _, ok, B, r2, ?_, hE, ?_⟩
        · by_cases hc : (r.Intn 2 (by decide)).1.val = 0
          · right; rw [if_pos hc]
          · left; rw [if_neg hc]
        · cases ok <;> rfl

/-- The three ways through `Filter.Delete`. -/
theorem Delete_cases (f : Filter) (id : Hash) (val : Byte) (a b : Fin NumBuckets)
    (hpr : process id = (val, a, b)) :
    (∃ s, f.Buckets a s = val ∧ (∀ t, f.Buckets a t = val → s ≤ t) ∧
      f.Delete id =
        (true, { f with Buckets := setSlot f.Buckets a s 0,
                        Count := (f.Count + uintMod - 1) % uintMod })) ∨
    ((∀ t, f.Buckets a t ≠ val) ∧
      ∃ s, f.Buckets b s = val ∧ (∀ t, f.Buckets b t = val → s ≤ t) ∧
      f.Delete id =
        (true, { f with Buckets := setSlot f.Buckets b s 0,
                        Count := (f.Count + uintMod - 1) % uintMod })) ∨
    ((∀ t, f.Buckets a t ≠ val) ∧ (∀ t, f.Buckets b t ≠ val) ∧ f.Delete id = (false, f)) := by
  unfold Filter.Delete
  rw [hpr]
  simp only []
  rcases hA : (f.Buckets a).Delete val with ⟨ba, okA⟩
  cases okA with
  | true =>
    left
    obtain ⟨s, hs, hmin, hba⟩ := Delete_ok hA
    refine ⟨s, hs, hmin, ?_⟩
    rw [hba]
    rfl
  | false =>
    right
    obtain ⟨hba, hnoA⟩ := Delete_fail hA
    subst hba
    simp only [setBucket_self, Bool.false_eq_true, if_false]
    rcases hB : (f.Buckets b).Delete val with ⟨bb, okB⟩
    cases okB with
    | true =>
      left
      obtain ⟨s, hs, hmin, hbb⟩ := Delete_ok hB
      refine ⟨hnoA, s, hs, hmin, ?_⟩
      rw [hbb]
      rfl
    | false =>
      right
      obtain ⟨hbb, hnoB⟩ := Delete_fail hB
      subst hbb
      refine ⟨hnoA, hnoB, ?_⟩
      simp only [setBucket_self, Bool.false_eq_true, if_false]

/-! ## Invariants of the eviction loop -/

theorem evict_step_ok (n : Nat) (B : Buckets) (val : Byte) (i : Fin NumBuckets) (r : Rand)
    {b1 : Bucket}
    (h : (setSlot B i (r.Intn BucketSize (by decide)).1 val
            (alt i (B i (r.Intn BucketSize (by decide)).1))).Insert
            (B i (r.Intn BucketSize (by decide)).1) = (b1, true)) :
    evict (n + 1) B val i r =
      (true,
        setBucket (setSlot B i (r.Intn BucketSize (by decide)).1 val)
          (alt i (B i (r.Intn BucketSize (by decide)).1)) b1,
        (r.Intn BucketSize (by decide)).2) := by
  rw [evict_succ, h]
  rfl

theorem evict_step_fail (n : Nat) (B : Buckets) (val : Byte) (i : Fin NumBuckets) (r : Rand)
    {b1 : Bucket}
    (h : (setSlot B i (r.Intn BucketSize (by decide)).1 val
            (alt i (B i (r.Intn BucketSize (by decide)).1))).Insert
            (B i (r.Intn BucketSize (by decide)).1) = (b1, false)) :
    evict (n + 1) B val i r =
      evict n (setSlot B i (r.Intn BucketSize (by decide)).1 val)
        (B i (r.Intn BucketSize (by decide)).1)
        (alt i (B i (r.Intn BucketSize (by decide)).1))
        (r.Intn BucketSize (by decide)).2 := by
  rw [evict_succ, h]
  obtain ⟨hb, -⟩ := Insert_fail h
  subst hb
  simp only [Bool.false_eq_true, if_false, setBucket_self]

/-- An invariant of the eviction loop holds of the result of a successful run. -/
theorem evict_ok_of_inv (P : Buckets → Byte → Fin NumBuckets → Prop) (Q : Buckets → Prop)
    (hok : ∀ B val i j s, P B val i → setSlot B i j val (alt i (B i j)) s = 0 →
      Q (setSlot (setSlot B i j val) (alt i (B i j)) s (B i j)))
    (hfail : ∀ B val i j, P B val i → (∀ t, setSlot B i j val (alt i (B i j)) t ≠ 0) →
      P (setSlot B i j val) (B i j) (alt i (B i j))) :
    ∀ n B val i r, P B val i → (evict n B val i r).1 = true → Q (evict n B val i r).2.1 := by
  intro n
  induction n with
  | zero =>
    intro B val i r _ h
    rw [evict_zero] at h
    exact absurd h Bool.false_ne_true
  | succ n ih =>
    intro B val i r hP h
    rcases hI : (setSlot B i (r.Intn BucketSize (by decide)).1 val
            (alt i (B i (r.Intn BucketSize (by decide)).1))).Insert
            (B i (r.Intn BucketSize (by decide)).1) with ⟨b1, ok⟩
    cases ok with
    | true =>
      rw [evict_step_ok n B val i r hI]
      obtain ⟨s, hs, -, hb⟩ := Insert_ok hI
      subst hb
      exact hok B val i _ s hP hs
    | false =>
      rw [evict_step_fail n B val i r hI] at h ⊢
      obtain ⟨-, hfull⟩ := Insert_fail hI
      exact ih _ _ _ _ (hfail B val i _ hP hfull) h

/-- An invariant of the eviction loop holds of the state an exhausted run leaves. -/
theorem evict_fail_of_inv (P : Buckets → Byte → Fin NumBuckets → Prop)
    (hfail : ∀ B val i j, P B val i → (∀ t, setSlot B i j val (alt i (B i j)) t ≠ 0) →
      P (setSlot B i j val) (B i j) (alt i (B i j))) :
    ∀ n B val i r, P B val i → (evict n B val i r).1 = false →
      ∃ v k, P (evict n B val i r).2.1 v k := by
  intro n
  induction n with
  | zero =>
    intro B val i r hP _
    exact ⟨val, i, hP⟩
  | succ n ih =>
    intro B val i r hP h
    rcases hI : (setSlot B i (r.Intn BucketSize (by decide)).1 val
            (alt i (B i (r.Intn BucketSize (by decide)).1))).Insert
            (B i (r.Intn BucketSize (by decide)).1) with ⟨b1, ok⟩
    cases ok with
    | true =>
      rw [evict_step_ok n B val i r hI] at h
      exact absurd h.symm Bool.false_ne_true
    | false =>
      rw [evict_step_fail n B val i r hI] at h ⊢
      obtain ⟨-, hfull⟩ := Insert_fail hI
      exact ih _ _ _ _ (hfail B val i _ hP hfull) h

theorem fingerprint_ne_zero (id : Hash) : fingerprint id ≠ 0 := by
  intro h
  have h1 : (fingerprint id).val = 0 := by rw [h]; rfl
  have h2 : (fingerprint id).val = (bigEndianUint64 id 0 (by decide) % 255 + 1) % 256 := rfl
  omega

theorem alt_cand {a k : Fin NumBuckets} {v : Byte} (h : k = a ∨ k = alt a v) :
    alt k v = a ∨ alt k v = alt a v := by
  rcases h with h | h
  · right; rw [h]
  · left; rw [h, alt_alt]

theorem present_iff (B : Buckets) (v : Byte) (a b : Fin NumBuckets) :
    present B v a b ↔ ∃ k t, (k = a ∨ k = b) ∧ B k t = v := by
  unfold present
  constructor
  · rintro (⟨s, hs⟩ | ⟨s, hs⟩)
    · exact ⟨a, s, Or.inl rfl, hs⟩
    · exact ⟨b, s, Or.inr rfl, hs⟩
  · rintro ⟨k, t, hk | hk, h⟩
    · left; exact ⟨t, hk ▸ h⟩
    · right; exact ⟨t, hk ▸ h⟩

/-! ## Stored fingerprints stay in their candidate buckets -/

/-- A kick keeps a fingerprint that is stored in one of its candidate buckets
either stored there or in the hand on its way to the other candidate. -/
theorem kick_keeps (vx : Byte) (ax : Fin NumBuckets) (B : Buckets) (val : Byte)
    (i : Fin NumBuckets) (j : Fin BucketSize)
    (h : (∃ k t, (k = ax ∨ k = alt ax vx) ∧ B k t = vx) ∨
      (val = vx ∧ (i = ax ∨ i = alt ax vx))) :
    (∃ k t, (k = ax ∨ k = alt ax vx) ∧ setSlot B i j val k t = vx) ∨
      (B i j = vx ∧ (alt i (B i j) = ax ∨ alt i (B i j) = alt ax vx)) := by
  rcases h with ⟨k, t, hk, hkt⟩ | ⟨hv, hi⟩
  · by_cases hpos : k = i ∧ t = j
    · obtain ⟨rfl, rfl⟩ := hpos
      right
      refine ⟨hkt, ?_⟩
      rw [hkt]
      exact alt_cand hk
    · left
      refine ⟨k, t, hk, ?_⟩
      rw [setSlot_apply, if_neg hpos]
      exact hkt
  · left
    refine ⟨i, j, hi, ?_⟩
    rw [setSlot_apply, if_pos ⟨rfl, rfl⟩]
    exact hv

/-- Storing the hand in an empty slot of the bucket it is offered to. -/
theorem place_keeps (vx : Byte) (hvx : vx ≠ 0) (ax : Fin NumBuckets) (B : Buckets) (val : Byte)
    (i : Fin NumBuckets) (s : Fin BucketSize) (hs : B i s = 0)
    (h : (∃ k t, (k = ax ∨ k = alt ax vx) ∧ B k t = vx) ∨
      (val = vx ∧ (i = ax ∨ i = alt ax vx))) :
    ∃ k t, (k = ax ∨ k = alt ax vx) ∧ setSlot B i s val k t = vx := by
  rcases h with ⟨k, t, hk, hkt⟩ | ⟨hv, hi⟩
  · refine ⟨k, t, hk, ?_⟩
    have hpos : ¬(k = i ∧ t = s) := by
      rintro ⟨rfl, rfl⟩
      exact hvx (hkt.symm.trans hs)
    rw [setSlot_apply, if_neg hpos]
    exact hkt
  · refine ⟨i, s, hi, ?_⟩
    rw [setSlot_apply, if_pos ⟨rfl, rfl⟩]
    exact hv

theorem evict_keeps (vx : Byte) (hvx : vx ≠ 0) (ax : Fin NumBuckets) (n : Nat) (B : Buckets)
    (val : Byte) (i : Fin NumBuckets) (r : Rand)
    (h : (∃ k t, (k = ax ∨ k = alt ax vx) ∧ B k t = vx) ∨
      (val = vx ∧ (i = ax ∨ i = alt ax vx)))
    (hok : (evict n B val i r).1 = true) :
    ∃ k t, (k = ax ∨ k = alt ax vx) ∧ (evict n B val i r).2.1 k t = vx :=
  evict_ok_of_inv
    (fun B val i => (∃ k t, (k = ax ∨ k = alt ax vx) ∧ B k t = vx) ∨
      (val = vx ∧ (i = ax ∨ i = alt ax vx)))
    (fun B => ∃ k t, (k = ax ∨ k = alt ax vx) ∧ B k t = vx)
    (fun B val i j s hP hs =>
      place_keeps vx hvx ax _ _ _ s hs (kick_keeps vx ax B val i j hP))
    (fun B val i j hP _ => kick_keeps vx ax B val i j hP)
    n B val i r h hok

/-- A successful `Insert` keeps every stored fingerprint in one of its two
candidate buckets, and stores its own. -/
theorem Insert_keeps (f : Filter) (id : Hash) (r : Rand) (vx : Byte) (hvx : vx ≠ 0)
    (ax : Fin NumBuckets)
    (h : (∃ k t, (k = ax ∨ k = alt ax vx) ∧ f.Buckets k t = vx) ∨
      (fingerprint id = vx ∧ (primary id = ax ∨ primary id = alt ax vx)))
    (hok : (f.Insert id r).1 = true) :
    ∃ k t, (k = ax ∨ k = alt ax vx) ∧ (f.Insert id r).2.1.Buckets k t = vx := by
  have hb : fingerprint id = vx ∧ (primary id = ax ∨ primary id = alt ax vx) →
      alt (primary id) (fingerprint id) = ax ∨ alt (primary id) (fingerprint id) = alt ax vx := by
    rintro ⟨hv, hi⟩
    rw [hv]
    exact alt_cand hi
  rcases Insert_cases f id r _ _ _ (process_eq id) with
    ⟨-, hI⟩ | ⟨-, s, hs, -, hI⟩ | ⟨-, -, s, hs, -, hI⟩ | ⟨-, -, -, i, r1, ok, B, r2, hi, hE, hI⟩
  · rw [hI] at hok
    exact absurd hok Bool.false_ne_true
  · rw [hI]
    exact place_keeps vx hvx ax _ _ _ s hs (h.imp_right fun hh => ⟨hh.1, hh.2⟩)
  · rw [hI]
    exact place_keeps vx hvx ax _ _ _ s hs (h.imp_right fun hh => ⟨hh.1, hb hh⟩)
  · rw [hI] at hok ⊢
    have hok1 : (evict MaxInsertionAttempts f.Buckets (fingerprint id) i r1).1 = true := by
      rw [hE]; exact hok
    have hP : (∃ k t, (k = ax ∨ k = alt ax vx) ∧ f.Buckets k t = vx) ∨
        (fingerprint id = vx ∧ (i = ax ∨ i = alt ax vx)) := by
      refine h.imp_right fun hh => ⟨hh.1, ?_⟩
      rcases hi with hi | hi
      · rw [hi]; exact hh.2
      · rw [hi]; exact hb hh
    have := evict_keeps vx hvx ax _ _ _ _ _ hP hok1
    rw [hE] at this
    exact this

/-! ## A fingerprint just inserted is stored once -/

/-- A kick keeps the copies of a fingerprint in its candidate buckets at most
one, the one in the hand included. -/
theorem kick_single (vy : Byte) (a : Fin NumBuckets) (B : Buckets) (val : Byte)
    (i : Fin NumBuckets) (j : Fin BucketSize)
    (hU : ∀ k t k' t', (k = a ∨ k = alt a vy) → (k' = a ∨ k' = alt a vy) →
      B k t = vy → B k' t' = vy → k = k' ∧ t = t')
    (hH : val = vy → (i = a ∨ i = alt a vy) →
      ∀ k t, (k = a ∨ k = alt a vy) → B k t ≠ vy) :
    (∀ k t k' t', (k = a ∨ k = alt a vy) → (k' = a ∨ k' = alt a vy) →
      setSlot B i j val k t = vy → setSlot B i j val k' t' = vy → k = k' ∧ t = t') ∧
    (B i j = vy → (alt i (B i j) = a ∨ alt i (B i j) = alt a vy) →
      ∀ k t, (k = a ∨ k = alt a vy) → setSlot B i j val k t ≠ vy) := by
  constructor
  · intro k t k' t' hk hk' h1 h2
    rw [setSlot_apply] at h1 h2
    by_cases p1 : k = i ∧ t = j
    · by_cases p2 : k' = i ∧ t' = j
      · exact ⟨p1.1.trans p2.1.symm, p1.2.trans p2.2.symm⟩
      · rw [if_pos p1] at h1
        rw [if_neg p2] at h2
        exact absurd h2 (hH h1 (p1.1 ▸ hk) k' t' hk')
    · by_cases p2 : k' = i ∧ t' = j
      · rw [if_neg p1] at h1
        rw [if_pos p2] at h2
        exact absurd h1 (hH h2 (p2.1 ▸ hk') k t hk)
      · rw [if_neg p1] at h1
        rw [if_neg p2] at h2
        exact hU k t k' t' hk hk' h1 h2
  · intro hij hi k t hk hkt
    rw [hij] at hi
    have hci : i = a ∨ i = alt a vy := by
      have := alt_cand hi
      rwa [alt_alt] at this
    rw [setSlot_apply] at hkt
    by_cases p : k = i ∧ t = j
    · rw [if_pos p] at hkt
      exact hH hkt hci i j hci hij
    · rw [if_neg p] at hkt
      exact p (hU k t i j hk hci hkt hij)

/-- Storing the hand in a slot keeps the copies at most one. -/
theorem place_single (vy : Byte) (a : Fin NumBuckets) (B : Buckets) (val : Byte)
    (i : Fin NumBuckets) (s : Fin BucketSize)
    (hU : ∀ k t k' t', (k = a ∨ k = alt a vy) → (k' = a ∨ k' = alt a vy) →
      B k t = vy → B k' t' = vy → k = k' ∧ t = t')
    (hH : val = vy → (i = a ∨ i = alt a vy) →
      ∀ k t, (k = a ∨ k = alt a vy) → B k t ≠ vy) :
    ∀ k t k' t', (k = a ∨ k = alt a vy) → (k' = a ∨ k' = alt a vy) →
      setSlot B i s val k t = vy → setSlot B i s val k' t' = vy → k = k' ∧ t = t' :=
  (kick_single vy a B val i s hU hH).1

theorem evict_single (vy : Byte) (a : Fin NumBuckets) (n : Nat) (B : Buckets)
    (val : Byte) (i : Fin NumBuckets) (r : Rand)
    (hU : ∀ k t k' t', (k = a ∨ k = alt a vy) → (k' = a ∨ k' = alt a vy) →
      B k t = vy → B k' t' = vy → k = k' ∧ t = t')
    (hH : val = vy → (i = a ∨ i = alt a vy) →
      ∀ k t, (k = a ∨ k = alt a vy) → B k t ≠ vy)
    (hok : (evict n B val i r).1 = true) :
    ∀ k t k' t', (k = a ∨ k = alt a vy) → (k' = a ∨ k' = alt a vy) →
      (evict n B val i r).2.1 k t = vy → (evict n B val i r).2.1 k' t' = vy →
      k = k' ∧ t = t' :=
  evict_ok_of_inv
    (fun B val i =>
      (∀ k t k' t', (k = a ∨ k = alt a vy) → (k' = a ∨ k' = alt a vy) →
        B k t = vy → B k' t' = vy → k = k' ∧ t = t') ∧
      (val = vy → (i = a ∨ i = alt a vy) → ∀ k t, (k = a ∨ k = alt a vy) → B k t ≠ vy))
    (fun B => ∀ k t k' t', (k = a ∨ k = alt a vy) → (k' = a ∨ k' = alt a vy) →
        B k t = vy → B k' t' = vy → k = k' ∧ t = t')
    (fun B val i j s hP _ =>
      place_single vy a _ _ _ s (kick_single vy a B val i j hP.1 hP.2).1
        (kick_single vy a B val i j hP.1 hP.2).2)
    (fun B val i j hP _ => kick_single vy a B val i j hP.1 hP.2)
    n B val i r ⟨hU, hH⟩ hok

/-- After a successful `Insert` the candidate buckets of the id hold its
fingerprint in at most one slot. -/
theorem Insert_single (f : Filter) (id : Hash) (r : Rand)
    (hok : (f.Insert id r).1 = true) :
    ∀ k t k' t',
      (k = primary id ∨ k = alt (primary id) (fingerprint id)) →
      (k' = primary id ∨ k' = alt (primary id) (fingerprint id)) →
      (f.Insert id r).2.1.Buckets k t = fingerprint id →
      (f.Insert id r).2.1.Buckets k' t' = fingerprint id → k = k' ∧ t = t' := by
  have hnone : ¬present f.Buckets (fingerprint id) (primary id)
      (alt (primary id) (fingerprint id)) →
      ∀ k t, (k = primary id ∨ k = alt (primary id) (fingerprint id)) →
        f.Buckets k t ≠ fingerprint id := by
    intro hp k t hk hkt
    exact hp ((present_iff _ _ _ _).2 ⟨k, t, hk, hkt⟩)
  rcases Insert_cases f id r _ _ _ (process_eq id) with
    ⟨-, hI⟩ | ⟨hp, s, -, -, hI⟩ | ⟨hp, -, s, -, -, hI⟩ |
    ⟨hp, -, -, i, r1, ok, B, r2, -, hE, hI⟩
  · rw [hI] at hok
    exact absurd hok Bool.false_ne_true
  · rw [hI]
    exact place_single _ _ _ _ _ s
      (fun k t _ _ hk _ h1 _ => absurd h1 (hnone hp k t hk)) (fun _ _ => hnone hp)
  · rw [hI]
    exact place_single _ _ _ _ _ s
      (fun k t _ _ hk _ h1 _ => absurd h1 (hnone hp k t hk)) (fun _ _ => hnone hp)
  · rw [hI] at hok ⊢
    have hok1 : (evict MaxInsertionAttempts f.Buckets (fingerprint id) i r1).1 = true := by
      rw [hE]; exact hok
    have := evict_single (fingerprint id) (primary id) _ _ _ _ _
      (fun k t _ _ hk _ h1 _ => absurd h1 (hnone hp k t hk)) (fun _ _ => hnone hp) hok1
    rw [hE] at this
    exact this

/-! ## Occupied slots and the fields of the filter -/

theorem occupied_setSlot_of_ne (B : Buckets) (k : Fin NumBuckets) (s : Fin BucketSize)
    (v : Byte) (hv : v ≠ 0) (hB : B k s ≠ 0) : occupied (setSlot B k s v) = occupied B := by
  unfold occupied
  refine congrArg Finset.card (Finset.ext fun p => ?_)
  simp only [Finset.mem_filter, Finset.mem_univ, true_and, setSlot_apply]
  by_cases hp : p.1 = k ∧ p.2 = s
  · rw [if_pos hp, hp.1, hp.2]
    exact ⟨fun _ => hB, fun _ => hv⟩
  · rw [if_neg hp]

theorem occupied_setSlot_fill (B : Buckets) (k : Fin NumBuckets) (s : Fin BucketSize)
    (v : Byte) (hv : v ≠ 0) (hB : B k s = 0) :
    occupied (setSlot B k s v) = occupied B + 1 := by
  unfold occupied
  have hnot : (k, s) ∉ Finset.univ.filter
      (fun p : Fin NumBuckets × Fin BucketSize => B p.1 p.2 ≠ 0) := by
    simp only [Finset.mem_filter, Finset.mem_univ, true_and, not_not]
    exact hB
  rw [← Finset.card_insert_of_not_mem hnot]
  refine congrArg Finset.card (Finset.ext fun p => ?_)
  simp only [Finset.mem_filter, Finset.mem_univ, true_and, setSlot_apply, Finset.mem_insert]
  by_cases hp : p.1 = k ∧ p.2 = s
  · rw [if_pos hp]
    exact ⟨fun _ => Or.inl (Prod.ext hp.1 hp.2), fun _ => hv⟩
  · rw [if_neg hp]
    constructor
    · exact fun h => Or.inr h
    · rintro (h | h)
      · exact absurd ⟨congrArg Prod.fst h, congrArg Prod.snd h⟩ hp
      · exact h

theorem occupied_setSlot_clear (B : Buckets) (k : Fin NumBuckets) (s : Fin BucketSize)
    (hB : B k s ≠ 0) : occupied (setSlot B k s 0) + 1 = occupied B := by
  have h1 := occupied_setSlot_fill (setSlot B k s 0) k s (B k s) hB
    (by rw [setSlot_apply, if_pos ⟨rfl, rfl⟩])
  have h2 : setSlot (setSlot B k s 0) k s (B k s) = B := by
    funext k' s'
    rw [setSlot_apply, setSlot_apply]
    by_cases hp : k' = k ∧ s' = s
    · rw [if_pos hp, hp.1, hp.2]
    · rw [if_neg hp, if_neg hp]
  rw [h2] at h1
  exact h1.symm

theorem occupied_le (B : Buckets) : occupied B ≤ NumBuckets * BucketSize := by
  unfold occupied
  calc (Finset.univ.filter (fun p : Fin NumBuckets × Fin BucketSize => B p.1 p.2 ≠ 0)).card
      ≤ (Finset.univ : Finset (Fin NumBuckets × Fin BucketSize)).card :=
        Finset.card_le_card (Finset.filter_subset _ _)
    _ = NumBuckets * BucketSize := by
        rw [Finset.card_univ, Fintype.card_prod, Fintype.card_fin, Fintype.card_fin]

theorem occupied_zero : occupied (fun _ _ => 0) = 0 := by
  unfold occupied
  rw [Finset.card_eq_zero, Finset.filter_eq_empty_iff]
  intro p _
  simp only [ne_eq, not_true_eq_false, not_false_eq_true]

/-- A kick out of a full bucket with a nonzero hand keeps the number of
occupied slots, and the evicted fingerprint is nonzero. -/
theorem kick_occupied (B : Buckets) (val : Byte) (i : Fin NumBuckets) (j : Fin BucketSize)
    (hfull : ∀ t, B i t ≠ 0) (hval : val ≠ 0) :
    occupied (setSlot B i j val) = occupied B ∧ B i j ≠ 0 :=
  ⟨occupied_setSlot_of_ne B i j val hval (hfull j), hfull j⟩

theorem evict_occupied_ok (n : Nat) (B : Buckets) (val : Byte) (i : Fin NumBuckets) (r : Rand)
    (hfull : ∀ t, B i t ≠ 0) (hval : val ≠ 0) (hok : (evict n B val i r).1 = true) :
    occupied (evict n B val i r).2.1 = occupied B + 1 :=
  evict_ok_of_inv
    (fun B' val' i' => occupied B' = occupied B ∧ (∀ t, B' i' t ≠ 0) ∧ val' ≠ 0)
    (fun B' => occupied B' = occupied B + 1)
    (fun B' val' i' j s hP hs => by
      show occupied _ = occupied B + 1
      rw [occupied_setSlot_fill _ _ _ _ (hP.2.1 j) hs,
        occupied_setSlot_of_ne _ _ _ _ hP.2.2 (hP.2.1 j), hP.1])
    (fun B' val' i' j hP hfull' =>
      ⟨(occupied_setSlot_of_ne _ _ _ _ hP.2.2 (hP.2.1 j)).trans hP.1, hfull', hP.2.1 j⟩)
    n B val i r ⟨rfl, hfull, hval⟩ hok

theorem evict_occupied_fail (n : Nat) (B : Buckets) (val : Byte) (i : Fin NumBuckets) (r : Rand)
    (hfull : ∀ t, B i t ≠ 0) (hval : val ≠ 0) (hno : (evict n B val i r).1 = false) :
    occupied (evict n B val i r).2.1 = occupied B := by
  obtain ⟨v, k, h, -⟩ := evict_fail_of_inv
    (fun B' val' i' => occupied B' = occupied B ∧ (∀ t, B' i' t ≠ 0) ∧ val' ≠ 0)
    (fun B' val' i' j hP hfull' =>
      ⟨(occupied_setSlot_of_ne _ _ _ _ hP.2.2 (hP.2.1 j)).trans hP.1, hfull', hP.2.1 j⟩)
    n B val i r ⟨rfl, hfull, hval⟩ hno
  exact h

/-- What `Insert` does to the three fields of the filter. -/
theorem Insert_effect (f : Filter) (id : Hash) (r : Rand) :
    (f.Insert id r).2.1.isUnsafe = f.isUnsafe ∧
    ((f.Insert id r).1 = true →
      (f.Insert id r).2.1.Count = (f.Count + 1) % uintMod ∧
      occupied (f.Insert id r).2.1.Buckets = occupied f.Buckets + 1) ∧
    ((f.Insert id r).1 = false →
      (f.Insert id r).2.1.Count = f.Count ∧
      occupied (f.Insert id r).2.1.Buckets = occupied f.Buckets) := by
  have hv := fingerprint_ne_zero id
  rcases Insert_cases f id r _ _ _ (process_eq id) with
    ⟨-, hI⟩ | ⟨-, s, hs, -, hI⟩ | ⟨-, -, s, hs, -, hI⟩ |
    ⟨-, hfa, hfb, i, r1, ok, B, r2, hi, hE, hI⟩
  · rw [hI]
    exact ⟨rfl, fun h => absurd h Bool.false_ne_true, fun _ => ⟨rfl, rfl⟩⟩
  · rw [hI]
    exact ⟨rfl, fun _ => ⟨rfl, occupied_setSlot_fill _ _ _ _ hv hs⟩,
      fun h => absurd h.symm Bool.false_ne_true⟩
  · rw [hI]
    exact ⟨rfl, fun _ => ⟨rfl, occupied_setSlot_fill _ _ _ _ hv hs⟩,
      fun h => absurd h.symm Bool.false_ne_true⟩
  · have hfull : ∀ t, f.Buckets i t ≠ 0 := by
      rcases hi with hi | hi
      · rw [hi]; exact hfa
      · rw [hi]; exact hfb
    rw [hI]
    refine ⟨rfl, ?_, ?_⟩
    · intro hok
      have hok' : ok = true := hok
      have hok1 : (evict MaxInsertionAttempts f.Buckets (fingerprint id) i r1).1 = true := by
        rw [hE]; exact hok
      have := evict_occupied_ok _ _ _ _ _ hfull hv hok1
      rw [hE] at this
      subst hok'
      exact ⟨rfl, this⟩
    · intro hno
      have hno' : ok = false := hno
      have hno1 : (evict MaxInsertionAttempts f.Buckets (fingerprint id) i r1).1 = false := by
        rw [hE]; exact hno
      have := evict_occupied_fail _ _ _ _ _ hfull hv hno1
      rw [hE] at this
      subst hno'
      exact ⟨rfl, this⟩

/-- What `Delete` does to the three fields of the filter. -/
theorem Delete_effect (f : Filter) (id : Hash) :
    (f.Delete id).2.isUnsafe = f.isUnsafe ∧
    ((f.Delete id).1 = true →
      (f.Delete id).2.Count = (f.Count + uintMod - 1) % uintMod ∧
      occupied (f.Delete id).2.Buckets + 1 = occupied f.Buckets) ∧
    ((f.Delete id).1 = false → (f.Delete id).2 = f) := by
  have hv := fingerprint_ne_zero id
  rcases Delete_cases f id _ _ _ (process_eq id) with
    ⟨s, hs, -, hD⟩ | ⟨-, s, hs, -, hD⟩ | ⟨-, -, hD⟩
  · rw [hD]
    exact ⟨rfl, fun _ => ⟨rfl, occupied_setSlot_clear _ _ _ (fun h0 => hv (hs.symm.trans h0))⟩,
      fun h => absurd h.symm Bool.false_ne_true⟩
  · rw [hD]
    exact ⟨rfl, fun _ => ⟨rfl, occupied_setSlot_clear _ _ _ (fun h0 => hv (hs.symm.trans h0))⟩,
      fun h => absurd h.symm Bool.false_ne_true⟩
  · rw [hD]
    exact ⟨rfl, fun h => absurd h Bool.false_ne_true, fun _ => rfl⟩

/-! ## Serialization lemmas -/

theorem bytesOf_len (B : Buckets) : (bytesOf B).len = NumBuckets * BucketSize := rfl

theorem bytesOf_get (B : Buckets) (i : Fin (bytesOf B).len) (k : Fin NumBuckets)
    (s : Fin BucketSize) (h : i.val = k.val * BucketSize + s.val) :
    (bytesOf B).get i = B k s := by
  have hk : k.val < 524288 := k.isLt
  have hs : s.val < 4 := s.isLt
  have h4 : i.val = k.val * 4 + s.val := h
  have h1 : (⟨i.val / 4, by omega⟩ : Fin NumBuckets) = k := Fin.ext (by
    show i.val / 4 = k.val
    omega)
  have h2 : (⟨i.val % 4, Nat.mod_lt _ (by decide)⟩ : Fin BucketSize) = s :=
    Fin.ext (by
      show i.val % 4 = s.val
      omega)
  show B ⟨i.val / 4, _⟩ ⟨i.val % 4, _⟩ = B k s
  rw [h1, h2]

theorem bucketsOf_bytesOf (B : Buckets) (h : (bytesOf B).len = NumBuckets * BucketSize) :
    bucketsOf (bytesOf B) h = B := by
  funext k s
  exact bytesOf_get B _ k s rfl

theorem CountNonzeroBytes_bytesOf (B : Buckets) : CountNonzeroBytes (bytesOf B) = occupied B := by
  unfold CountNonzeroBytes occupied
  symm
  refine Finset.card_equiv (finProdFinEquiv : Fin NumBuckets × Fin BucketSize ≃ _) fun p => ?_
  simp only [Finset.mem_filter, Finset.mem_univ, true_and]
  rw [bytesOf_get B _ p.1 p.2 (Nat.add_comm _ _ |>.trans (by rw [Nat.mul_comm]))]

/-- Decoding the bytes of a bucket array gives the array back, with the
number of its occupied slots as `Count`. -/
theorem UnmarshalBinary_bytesOf (B : Buckets) :
    UnmarshalBinary (bytesOf B) =
      .ok { Buckets := B, Count := occupied B, isUnsafe := false } := by
  unfold UnmarshalBinary
  rw [dif_neg (not_not.mpr (bytesOf_len B))]
  simp only [bucketsOf_bytesOf, CountNonzeroBytes_bytesOf]

/-! ## Sessions -/

theorem run_nil (s : Session) : s.run [] = s := rfl

theorem run_cons (s : Session) (c : Call) (cs : List Call) :
    s.run (c :: cs) = (s.step c).run cs := rfl

theorem step_isUnsafe (s : Session) (c : Call) :
    (s.step c).filter.isUnsafe = s.filter.isUnsafe := by
  cases c with
  | insert id => exact (Insert_effect s.filter id s.rand).1
  | delete id => exact (Delete_effect s.filter id).1
  | reset => rfl

theorem run_isUnsafe (cs : List Call) : ∀ s : Session,
    (s.run cs).filter.isUnsafe = s.filter.isUnsafe := by
  induction cs with
  | nil => intro s; rfl
  | cons c cs ih =>
    intro s
    rw [run_cons, ih, step_isUnsafe]

/-- On an owned filter whose `Count` is the number of its occupied slots, a
call of `Insert` or `Delete` keeps it so and keeps the tally. -/
theorem step_counts (s : Session) (c : Call) (hc : c.isInsertOrDelete = true)
    (h1 : s.filter.Count = occupied s.filter.Buckets)
    (h2 : s.filter.Count + s.deleted = s.inserted) :
    (s.step c).filter.Count = occupied (s.step c).filter.Buckets ∧
    (s.step c).filter.Count + (s.step c).deleted = (s.step c).inserted := by
  have hle := occupied_le s.filter.Buckets
  have hN : NumBuckets * BucketSize = 2097152 := by decide
  have hM : uintMod = 18446744073709551616 := by decide
  cases c with
  | insert id =>
    obtain ⟨-, hT, hF⟩ := Insert_effect s.filter id s.rand
    show (s.filter.Insert id s.rand).2.1.Count = occupied (s.filter.Insert id s.rand).2.1.Buckets ∧
      (s.filter.Insert id s.rand).2.1.Count + s.deleted =
        if (s.filter.Insert id s.rand).1 = true then s.inserted + 1 else s.inserted
    cases hb : (s.filter.Insert id s.rand).1 with
    | true =>
      obtain ⟨hC, hO⟩ := hT hb
      rw [hC, hO, if_pos rfl, hM]
      omega
    | false =>
      obtain ⟨hC, hO⟩ := hF hb
      rw [hC, hO, if_neg Bool.false_ne_true]
      exact ⟨h1, h2⟩
  | delete id =>
    obtain ⟨-, hT, hF⟩ := Delete_effect s.filter id
    show (s.filter.Delete id).2.Count = occupied (s.filter.Delete id).2.Buckets ∧
      (s.filter.Delete id).2.Count +
        (if (s.filter.Delete id).1 = true then s.deleted + 1 else s.deleted) = s.inserted
    cases hb : (s.filter.Delete id).1 with
    | true =>
      obtain ⟨hC, hO⟩ := hT hb
      rw [hC, if_pos rfl, hM]
      omega
    | false =>
      rw [hF hb, if_neg Bool.false_ne_true]
      exact ⟨h1, h2⟩
  | reset => exact absurd hc Bool.false_ne_true

theorem run_counts (cs : List Call) : ∀ s : Session,
    (∀ c ∈ cs, c.isInsertOrDelete = true) →
    s.filter.Count = occupied s.filter.Buckets →
    s.filter.Count + s.deleted = s.inserted →
    (s.run cs).filter.Count = occupied (s.run cs).filter.Buckets ∧
    (s.run cs).filter.Count + (s.run cs).deleted = (s.run cs).inserted := by
  induction cs with
  | nil => intro s _ h1 h2; exact ⟨h1, h2⟩
  | cons c cs ih =>
    intro s hcs h1 h2
    rw [run_cons]
    have hstep := step_counts s c (hcs c (List.mem_cons_self _ _)) h1 h2
    exact ih _ (fun c' hc' => hcs c' (List.mem_cons_of_mem _ hc')) hstep.1 hstep.2

theorem NewFilter_counts : NewFilter.Count = occupied NewFilter.Buckets :=
  occupied_zero.symm

/-! ## Membership across inserts and deletes -/

/-- C1: no false negatives across successful inserts. If `Lookup(x)` is true in
`f` and `Insert(y)` on `f` returns true, whatever the random draws, then
`Lookup(x)` is true in the resulting filter. -/
theorem Lookup_preserved_by_Insert (f : Filter) (x y : Hash) (r : Rand)
    (hx : f.Lookup x = true) (hy : (f.Insert y r).1 = true) :
    (f.Insert y r).2.1.Lookup x = true := by
  rw [Lookup_iff, present_iff] at hx ⊢
  exact Insert_keeps f y r _ (fingerprint_ne_zero x) _ (Or.inl hx) hy

theorem Lookup_preserved_by_Insert_witness :
    crowded.Lookup idSeven = true ∧ (crowded.Insert idZero randZero).1 = true ∧
      (crowded.Insert idZero randZero).2.2.pos = 2 ∧
      (crowded.Insert idZero randZero).2.1.Lookup idSeven = true :=
  ⟨by decide, by decide, by decide,
    Lookup_preserved_by_Insert crowded idSeven idZero randZero (by decide) (by decide)⟩

/-- C2: a successful insert is immediately visible. If `Insert(y)` returns
true, directly or after any number of kicks, then `Lookup(y)` is true in the
resulting filter. -/
theorem Lookup_after_Insert (f : Filter) (y : Hash) (r : Rand)
    (hy : (f.Insert y r).1 = true) : (f.Insert y r).2.1.Lookup y = true := by
  rw [Lookup_iff, present_iff]
  exact Insert_keeps f y r _ (fingerprint_ne_zero y) _ (Or.inr ⟨rfl, Or.inl rfl⟩) hy

theorem Lookup_after_Insert_witness :
    (crowded.Insert idZero randZero).1 = true ∧
      (crowded.Insert idZero randZero).2.1.Lookup idZero = true :=
  ⟨by decide, Lookup_after_Insert crowded idZero randZero (by decide)⟩

/-- C3: `Delete` undoes `Insert`. If `Insert(y)` returns true then, in the
resulting filter, exactly one slot of the two candidate buckets of `y` holds
its fingerprint, `Delete(y)` returns true, and `Lookup(y)` is false after it. -/
theorem Delete_after_Insert (f : Filter) (y : Hash) (r : Rand)
    (hy : (f.Insert y r).1 = true) :
    (∃ k t, (k = primary y ∨ k = alt (primary y) (fingerprint y)) ∧
      (f.Insert y r).2.1.Buckets k t = fingerprint y ∧
      ∀ k' t', (k' = primary y ∨ k' = alt (primary y) (fingerprint y)) →
        (f.Insert y r).2.1.Buckets k' t' = fingerprint y → k' = k ∧ t' = t) ∧
    ((f.Insert y r).2.1.Delete y).1 = true ∧
    ((f.Insert y r).2.1.Delete y).2.Lookup y = false := by
  have hone := Insert_single f y r hy
  obtain ⟨k, t, hk, hkt⟩ :=
    Insert_keeps f y r _ (fingerprint_ne_zero y) _ (Or.inr ⟨rfl, Or.inl rfl⟩) hy
  have hv := fingerprint_ne_zero y
  refine ⟨⟨k, t, hk, hkt, fun k' t' hk' h' => hone k' t' k t hk' hk h' hkt⟩, ?_⟩
  have hgone : ∀ (c : Fin NumBuckets) (s : Fin BucketSize),
      (c = primary y ∨ c = alt (primary y) (fingerprint y)) →
      (f.Insert y r).2.1.Buckets c s = fingerprint y →
      ¬present (setSlot (f.Insert y r).2.1.Buckets c s 0) (fingerprint y) (primary y)
        (alt (primary y) (fingerprint y)) := by
    intro c s hc hcs hp
    obtain ⟨k', t', hk', h'⟩ := (present_iff _ _ _ _).1 hp
    rw [setSlot_apply] at h'
    by_cases hpos : k' = c ∧ t' = s
    · rw [if_pos hpos] at h'
      exact hv h'.symm
    · rw [if_neg hpos] at h'
      exact hpos (hone k' t' c s hk' hc h' hcs)
  rcases Delete_cases (f.Insert y r).2.1 y _ _ _ (process_eq y) with
    ⟨s, hs, -, hD⟩ | ⟨-, s, hs, -, hD⟩ | ⟨hna, hnb, -⟩
  · refine ⟨by rw [hD], ?_⟩
    rw [Bool.eq_false_iff, Ne, Lookup_iff, hD]
    exact hgone _ s (Or.inl rfl) hs
  · refine ⟨by rw [hD], ?_⟩
    rw [Bool.eq_false_iff, Ne, Lookup_iff, hD]
    exact hgone _ s (Or.inr rfl) hs
  · rcases hk with hk | hk
    · exact absurd (hk ▸ hkt) (hna t)
    · exact absurd (hk ▸ hkt) (hnb t)

theorem Delete_after_Insert_witness :
    (crowded.Insert idZero randZero).1 = true ∧
      ((crowded.Insert idZero randZero).2.1.Delete idZero).1 = true ∧
      ((crowded.Insert idZero randZero).2.1.Delete idZero).2.Lookup idZero = false :=
  ⟨by decide, (Delete_after_Insert crowded idZero randZero (by decide)).2⟩

/-- C4: duplicate rejection is atomic. If `Lookup(y)` is true in `f` then
`Insert(y)` returns false and leaves the filter (every bucket, `Count`) and the
random source untouched; in particular an `Insert(y)` directly after a
successful `Insert(y)` returns false and changes nothing. -/
theorem Insert_duplicate_rejected (f : Filter) (y : Hash) (r : Rand) :
    (f.Lookup y = true → f.Insert y r = (false, f, r)) ∧
    ((f.Insert y r).1 = true → ∀ r' : Rand,
      (f.Insert y r).2.1.Insert y r' = (false, (f.Insert y r).2.1, r')) := by
  have key : ∀ (g : Filter) (q : Rand), g.Lookup y = true → g.Insert y q = (false, g, q) := by
    intro g q hg
    rw [Lookup_iff] at hg
    rcases Insert_cases g y q _ _ _ (process_eq y) with
      ⟨-, hI⟩ | ⟨hp, -⟩ | ⟨hp, -⟩ | ⟨hp, -⟩
    · exact hI
    · exact absurd hg hp
    · exact absurd hg hp
    · exact absurd hg hp
  refine ⟨key f r, fun hy r' => key _ r' ?_⟩
  rw [Lookup_iff, present_iff]
  exact Insert_keeps f y r _ (fingerprint_ne_zero y) _ (Or.inr ⟨rfl, Or.inl rfl⟩) hy

/-! ## Delete and Count -/

/-- C5 as stated fails: on the filter that `UnsafeUnmarshalBinary` builds from
a buffer with one nonzero byte, `Lookup` is true and `Delete` returns true,
but `Count` goes from `0` to `2 ^ 64 - 1` instead of decreasing by 1. -/
theorem Delete_Count_wraps :
    UnsafeUnmarshalBinary oneThenZeros = .ok viewOfOne ∧
    viewOfOne.Lookup idZero = true ∧ (viewOfOne.Delete idZero).1 = true ∧
    viewOfOne.Count = 0 ∧ (viewOfOne.Delete idZero).2.Count = 18446744073709551615 ∧
    (viewOfOne.Delete idZero).2.Count + 1 ≠ viewOfOne.Count :=
  ⟨rfl, by decide, by decide, rfl, by decide, by decide⟩

/-- C5, amended: `Delete(y)` returns true exactly when `Lookup(y)` was true.
When it returns false the filter is unchanged. When it returns true, exactly one
slot, the first slot holding the fingerprint of `y` in bucket `a`, else in
bucket `b`, is set to 0 and every other slot is unchanged, the flag is
unchanged, and `Count` becomes `(Count - 1) mod 2 ^ 64`: one less when `Count`
was positive, `2 ^ 64 - 1` when it was 0. -/
theorem Delete_spec (f : Filter) (y : Hash) :
    ((f.Delete y).1 = true ↔ f.Lookup y = true) ∧
    ((f.Delete y).1 = false → (f.Delete y).2 = f) ∧
    ((f.Delete y).1 = true →
      (∃ k s,
        ((k = primary y ∧ ∀ t, f.Buckets (primary y) t = fingerprint y → s ≤ t) ∨
         (k = alt (primary y) (fingerprint y) ∧
          (∀ t, f.Buckets (primary y) t ≠ fingerprint y) ∧
          ∀ t, f.Buckets (alt (primary y) (fingerprint y)) t = fingerprint y → s ≤ t)) ∧
        f.Buckets k s = fingerprint y ∧ (f.Delete y).2.Buckets k s = 0 ∧
        ∀ k' s', ¬(k' = k ∧ s' = s) → (f.Delete y).2.Buckets k' s' = f.Buckets k' s') ∧
      (f.Delete y).2.isUnsafe = f.isUnsafe ∧
      (f.Delete y).2.Count = (f.Count + uintMod - 1) % uintMod ∧
      (0 < f.Count → f.Count < uintMod → (f.Delete y).2.Count + 1 = f.Count) ∧
      (f.Count = 0 → (f.Delete y).2.Count = uintMod - 1)) := by
  have hM : uintMod = 18446744073709551616 := by decide
  have hcount : ∀ c : Nat,
      (0 < c → c < uintMod → (c + uintMod - 1) % uintMod + 1 = c) ∧
      (c = 0 → (c + uintMod - 1) % uintMod = uintMod - 1) := by
    intro c
    rw [hM]
    constructor
    · intro h1 h2; omega
    · intro h1; subst h1; rfl
  have hslot : ∀ (k : Fin NumBuckets) (s : Fin BucketSize),
      setSlot f.Buckets k s 0 k s = 0 ∧
      ∀ k' s', ¬(k' = k ∧ s' = s) → setSlot f.Buckets k s 0 k' s' = f.Buckets k' s' := by
    intro k s
    refine ⟨by rw [setSlot_apply, if_pos ⟨rfl, rfl⟩], fun k' s' h => ?_⟩
    rw [setSlot_apply, if_neg h]
  rw [Lookup_iff]
  rcases Delete_cases f y _ _ _ (process_eq y) with
    ⟨s, hs, hmin, hD⟩ | ⟨hna, s, hs, hmin, hD⟩ | ⟨hna, hnb, hD⟩
  · rw [hD]
    refine ⟨⟨fun _ => Or.inl ⟨s, hs⟩, fun _ => rfl⟩,
      fun h => absurd h.symm Bool.false_ne_true, fun _ => ?_⟩
    exact ⟨⟨_, s, Or.inl ⟨rfl, hmin⟩, hs, (hslot _ s).1, (hslot _ s).2⟩, rfl, rfl,
      (hcount f.Count).1, (hcount f.Count).2⟩
  · rw [hD]
    refine ⟨⟨fun _ => Or.inr ⟨s, hs⟩, fun _ => rfl⟩,
      fun h => absurd h.symm Bool.false_ne_true, fun _ => ?_⟩
    exact ⟨⟨_, s, Or.inr ⟨rfl, hna, hmin⟩, hs, (hslot _ s).1, (hslot _ s).2⟩, rfl, rfl,
      (hcount f.Count).1, (hcount f.Count).2⟩
  · rw [hD]
    refine ⟨⟨fun h => absurd h Bool.false_ne_true, ?_⟩, fun _ => rfl,
      fun h => absurd h Bool.false_ne_true⟩
    rintro (⟨t, ht⟩ | ⟨t, ht⟩)
    · exact absurd ht (hna t)
    · exact absurd ht (hnb t)

/-- C6: `Count` accuracy. After any sequence of `Insert` and `Delete` calls on
`NewFilter()`, with any random draws, `Count` is the number of `Insert`s that
returned true minus the number of `Delete`s that returned true; and in the
filter so reached `Insert` changes `Count` by +1 when it returns true and by 0
when it returns false, `Delete` by -1 when it returns true and by 0 when it
returns false. -/
theorem Count_accuracy (cs : List Call) (r : Rand)
    (hcs : ∀ c ∈ cs, c.isInsertOrDelete = true) :
    (((Session.start NewFilter r).run cs).filter.Count : Int) =
      ((Session.start NewFilter r).run cs).inserted -
        ((Session.start NewFilter r).run cs).deleted ∧
    (∀ (id : Hash) (r' : Rand),
      ((((Session.start NewFilter r).run cs).filter.Insert id r').2.1.Count : Int) =
        ((Session.start NewFilter r).run cs).filter.Count +
          (if (((Session.start NewFilter r).run cs).filter.Insert id r').1 = true
            then 1 else 0)) ∧
    (∀ id : Hash,
      ((((Session.start NewFilter r).run cs).filter.Delete id).2.Count : Int) =
        ((Session.start NewFilter r).run cs).filter.Count -
          (if (((Session.start NewFilter r).run cs).filter.Delete id).1 = true
            then 1 else 0)) := by
  obtain ⟨h1, h2⟩ := run_counts cs (Session.start NewFilter r) hcs NewFilter_counts rfl
  have hle := occupied_le ((Session.start NewFilter r).run cs).filter.Buckets
  have hN : NumBuckets * BucketSize = 2097152 := by decide
  have hM : uintMod = 18446744073709551616 := by decide
  refine ⟨by omega, fun id r' => ?_, fun id => ?_⟩
  · obtain ⟨-, hT, hF⟩ := Insert_effect ((Session.start NewFilter r).run cs).filter id r'
    cases hb : (((Session.start NewFilter r).run cs).filter.Insert id r').1 with
    | true =>
      rw [(hT hb).1, if_pos rfl, hM]
      omega
    | false =>
      rw [(hF hb).1, if_neg Bool.false_ne_true]
      omega
  · obtain ⟨-, hT, hF⟩ := Delete_effect ((Session.start NewFilter r).run cs).filter id
    cases hb : (((Session.start NewFilter r).run cs).filter.Delete id).1 with
    | true =>
      have hO := (hT hb).2
      rw [(hT hb).1, if_pos rfl, hM]
      omega
    | false =>
      rw [hF hb, if_neg Bool.false_ne_true]
      omega

theorem Count_accuracy_witness :
    ((Session.start NewFilter randZero).run
      [.insert idZero, .insert idSeven, .insert idZero, .delete idZero,
        .delete idZero]).filter.Count = 1 ∧
    ((Session.start NewFilter randZero).run
      [.insert idZero, .insert idSeven, .insert idZero, .delete idZero,
        .delete idZero]).inserted = 2 ∧
    ((Session.start NewFilter randZero).run
      [.insert idZero, .insert idSeven, .insert idZero, .delete idZero,
        .delete idZero]).deleted = 1 ∧
    (((Session.start NewFilter randZero).run
        [.insert idZero, .insert idSeven, .insert idZero, .delete idZero,
          .delete idZero]).filter.Count : Int) =
      ((Session.start NewFilter randZero).run
        [.insert idZero, .insert idSeven, .insert idZero, .delete idZero,
          .delete idZero]).inserted -
      ((Session.start NewFilter randZero).run
        [.insert idZero, .insert idSeven, .insert idZero, .delete idZero,
          .delete idZero]).deleted :=
  ⟨by decide, by decide, by decide,
    (Count_accuracy [.insert idZero, .insert idSeven, .insert idZero, .delete idZero,
      .delete idZero] randZero (by decide)).1⟩

/-! ## Encoding and decoding -/

/-- C7: encode/decode round trip on the owned path. For every filter reached
from `NewFilter()` by a sequence of `Insert` and `Delete` calls, `MarshalBinary`
returns a buffer and `UnmarshalBinary` of that buffer returns, without error, a
filter equal to the original in its buckets, its `Count` and its flag. -/
theorem Marshal_Unmarshal_roundtrip (cs : List Call) (r : Rand)
    (hcs : ∀ c ∈ cs, c.isInsertOrDelete = true) :
    ∃ out, ((Session.start NewFilter r).run cs).filter.MarshalBinary = .ok out ∧
      UnmarshalBinary out = .ok ((Session.start NewFilter r).run cs).filter := by
  obtain ⟨h1, -⟩ := run_counts cs (Session.start NewFilter r) hcs NewFilter_counts rfl
  have hu : ((Session.start NewFilter r).run cs).filter.isUnsafe = false :=
    run_isUnsafe cs (Session.start NewFilter r)
  refine ⟨bytesOf ((Session.start NewFilter r).run cs).filter.Buckets, ?_, ?_⟩
  · unfold Filter.MarshalBinary
    rw [hu]
    rfl
  · rw [UnmarshalBinary_bytesOf, ← h1, ← hu]

theorem Marshal_Unmarshal_roundtrip_witness :
    ((Session.start NewFilter randZero).run [.insert idZero, .delete idSeven]).filter.Count = 1 ∧
    ∃ out,
      ((Session.start NewFilter randZero).run
        [.insert idZero, .delete idSeven]).filter.MarshalBinary = .ok out ∧
      UnmarshalBinary out =
        .ok ((Session.start NewFilter randZero).run [.insert idZero, .delete idSeven]).filter :=
  ⟨by decide,
    Marshal_Unmarshal_roundtrip [.insert idZero, .delete idSeven] randZero (by decide)⟩

/-- C8: size validation. `NumBuckets * BucketSize` is 2097152; `UnmarshalBinary`
and `UnsafeUnmarshalBinary` each return an error, and so no filter, exactly when
the length of the buffer differs from it, and for a buffer of that length both
return a filter. -/
theorem Unmarshal_size_validation (buf : ByteSlice) :
    NumBuckets * BucketSize = 2097152 ∧
    ((∃ e, UnmarshalBinary buf = .error e) ↔ buf.len ≠ NumBuckets * BucketSize) ∧
    ((∃ e, UnsafeUnmarshalBinary buf = .error e) ↔ buf.len ≠ NumBuckets * BucketSize) ∧
    (buf.len = NumBuckets * BucketSize →
      (∃ f, UnmarshalBinary buf = .ok f) ∧ ∃ f, UnsafeUnmarshalBinary buf = .ok f) := by
  refine ⟨by decide, ?_, ?_, ?_⟩
  · unfold UnmarshalBinary
    by_cases h : buf.len ≠ NumBuckets * BucketSize
    · rw [dif_pos h]
      exact ⟨fun _ => h, fun _ => ⟨_, rfl⟩⟩
    · rw [dif_neg h]
      exact ⟨fun ⟨e, he⟩ => Except.noConfusion he, fun h' => absurd h' h⟩
  · unfold UnsafeUnmarshalBinary
    by_cases h : buf.len ≠ NumBuckets * BucketSize
    · rw [dif_pos h]
      exact ⟨fun _ => h, fun _ => ⟨_, rfl⟩⟩
    · rw [dif_neg h]
      exact ⟨fun ⟨e, he⟩ => Except.noConfusion he, fun h' => absurd h' h⟩
  · intro h
    unfold UnmarshalBinary UnsafeUnmarshalBinary
    rw [dif_neg (not_not.mpr h), dif_neg (not_not.mpr h)]
    exact ⟨⟨_, rfl⟩, ⟨_, rfl⟩⟩

theorem Marshal_error_iff (f : Filter) :
    f.MarshalBinary = .error remarshalPanic ↔ f.isUnsafe = true := by
  unfold Filter.MarshalBinary
  cases f.isUnsafe with
  | true => exact ⟨fun _ => rfl, fun _ => rfl⟩
  | false =>
    exact ⟨fun h => Except.noConfusion (h : Except.ok _ = Except.error _),
      fun h => absurd h Bool.false_ne_true⟩

theorem Marshal_ok_of_owned (f : Filter) (h : f.isUnsafe = false) :
    f.MarshalBinary = .ok (bytesOf f.Buckets) := by
  unfold Filter.MarshalBinary
  rw [h]
  rfl

/-- C9: re-encoding an unsafely decoded filter fails loudly. `MarshalBinary`
panics exactly when the flag of the filter is set; so it panics on the result
of `UnsafeUnmarshalBinary` on any buffer of valid length, also after any later
`Insert`, `Delete` or `Reset` calls, and it never panics on a filter obtained
from `NewFilter` or `UnmarshalBinary` followed by any such calls. -/
theorem Marshal_panics_iff_unsafe :
    (∀ f : Filter, f.MarshalBinary = .error remarshalPanic ↔ f.isUnsafe = true) ∧
    (∀ f : Filter, (∃ out, f.MarshalBinary = .ok out) ↔ f.isUnsafe = false) ∧
    (∀ buf : ByteSlice, buf.len = NumBuckets * BucketSize →
      ∃ f, UnsafeUnmarshalBinary buf = .ok f ∧
        ∀ (cs : List Call) (r : Rand),
          ((Session.start f r).run cs).filter.MarshalBinary = .error remarshalPanic) ∧
    (∀ (cs : List Call) (r : Rand),
      ∃ out, ((Session.start NewFilter r).run cs).filter.MarshalBinary = .ok out) ∧
    (∀ (buf : ByteSlice) (f : Filter), UnmarshalBinary buf = .ok f →
      ∀ (cs : List Call) (r : Rand),
        ∃ out, ((Session.start f r).run cs).filter.MarshalBinary = .ok out) := by
  refine ⟨Marshal_error_iff, fun f => ?_, fun buf h => ?_, fun cs r => ?_, fun buf f h cs r => ?_⟩
  · constructor
    · rintro ⟨out, hout⟩
      cases hf : f.isUnsafe with
      | false => rfl
      | true =>
        rw [(Marshal_error_iff f).2 hf] at hout
        exact Except.noConfusion hout
    · exact fun h => ⟨_, Marshal_ok_of_owned f h⟩
  · refine ⟨{ Buckets := bucketsOf buf h, Count := 0, isUnsafe := true }, ?_, fun cs r => ?_⟩
    · unfold UnsafeUnmarshalBinary
      rw [dif_neg (not_not.mpr h)]
    · rw [Marshal_error_iff]
      exact run_isUnsafe cs _
  · exact ⟨_, Marshal_ok_of_owned _ (run_isUnsafe cs (Session.start NewFilter r))⟩
  · refine ⟨_, Marshal_ok_of_owned _ ((run_isUnsafe cs (Session.start f r)).trans ?_)⟩
    unfold UnmarshalBinary at h
    by_cases hl : buf.len ≠ NumBuckets * BucketSize
    · rw [dif_pos hl] at h
      exact Except.noConfusion h
    · rw [dif_neg hl] at h
      injection h with h
      rw [← h]
      rfl

/-- C10 fails on the code: `Reset` assigns `Buckets` and `Count` only, so on
the filter that `UnsafeUnmarshalBinary` builds from the all-zero buffer it
leaves the flag set; the result is not `NewFilter()`, and `MarshalBinary`
still panics on it. On every filter `Reset` gives the buckets and the `Count`
of `NewFilter()` and keeps the flag. -/
theorem Reset_keeps_flag :
    UnsafeUnmarshalBinary (zeroBytes (NumBuckets * BucketSize)) = .ok viewOfZeros ∧
    viewOfZeros.Reset.isUnsafe = true ∧ NewFilter.isUnsafe = false ∧
    viewOfZeros.Reset ≠ NewFilter ∧
    viewOfZeros.Reset.MarshalBinary = .error remarshalPanic ∧
    NewFilter.MarshalBinary = .ok (bytesOf NewFilter.Buckets) ∧
    (∀ f : Filter, f.Reset.Buckets = NewFilter.Buckets ∧ f.Reset.Count = NewFilter.Count ∧
      f.Reset.isUnsafe = f.isUnsafe) :=
  ⟨rfl, rfl, rfl, fun h => Bool.false_ne_true (congrArg Filter.isUnsafe h).symm, rfl, rfl,
    fun _ => ⟨rfl, rfl, rfl⟩⟩

/-! ## Exhausted inserts -/

set_option maxRecDepth 100000

/-- C11 fails on the code: on the filter full of `7`s but for one `9`, the
fingerprint of `idNine`, in slot 0 of bucket `33206`, `Lookup(idNine)` is true
and `Lookup(idZero)` false; `Insert(idZero)` with every draw `0` uses the 500
attempts (501 draws) and returns false with `Count` unchanged, and afterwards
`Lookup(idNine)` is false: the slot of the `9` holds the fingerprint of
`idZero`, and the `9` was in the hand when the loop stopped. -/
theorem exhausted_Insert_loses_item :
    sevensAndNine.Lookup idNine = true ∧ sevensAndNine.Lookup idZero = false ∧
    sevensAndNine.Buckets (process idNine).2.1 0 = (process idNine).1 ∧
    (sevensAndNine.Insert idZero randZero).1 = false ∧
    (sevensAndNine.Insert idZero randZero).2.2.pos = 501 ∧
    (sevensAndNine.Insert idZero randZero).2.1.Count = sevensAndNine.Count ∧
    (sevensAndNine.Insert idZero randZero).2.1.Lookup idNine = false ∧
    (sevensAndNine.Insert idZero randZero).2.1.Buckets (process idNine).2.1 0 =
      (process idZero).1 := by
  refine ⟨by decide, by decide, by decide, ?_, ?_, ?_, ?_, ?_⟩ <;> decide

/-- C12 fails on the code: on the filter full of `7`s, `Lookup(idZero)` is
false and `Insert(idZero)` with every draw `0` uses the 500 attempts (501
draws) and returns false with `Count` unchanged, yet `Lookup(idZero)` is true
in the resulting filter: the kicks leave the fingerprint of `idZero` in slot 0
of its second candidate bucket. -/
theorem exhausted_Insert_stores_item :
    allSeven.Lookup idZero = false ∧
    (allSeven.Insert idZero randZero).1 = false ∧
    (allSeven.Insert idZero randZero).2.2.pos = 501 ∧
    (allSeven.Insert idZero randZero).2.1.Count = allSeven.Count ∧
    (allSeven.Insert idZero randZero).2.1.Lookup idZero = true ∧
    (allSeven.Insert idZero randZero).2.1.Buckets (process idZero).2.2 0 =
      (process idZero).1 := by
  refine ⟨by decide, ?_, ?_, ?_, ?_, ?_⟩ <;> decide

/-! ## Derived values and bucket operations -/

/-- C13: derived values are always in range. For every id, `process` returns a
fingerprint `val` with `1 ≤ val ≤ 255`, equal to the 64-bit word of bytes
0 to 7 modulo 255 plus 1 (the conversion to `byte` truncates nothing), and
bucket indices `a` and `b` below `NumBuckets` with
`b = (a ^ jenkins(val)) % NumBuckets`; the index recomputed in an eviction
step is below `NumBuckets` as well, and the slot drawn is below `BucketSize`. -/
theorem process_in_range (id : Hash) :
    1 ≤ (process id).1.val ∧ (process id).1.val ≤ 255 ∧ (process id).1 ≠ 0 ∧
    (process id).1.val = bigEndianUint64 id 0 (by decide) % 255 + 1 ∧
    (process id).2.1.val < NumBuckets ∧ (process id).2.2.val < NumBuckets ∧
    (process id).2.2.val = ((process id).2.1.val ^^^ jenkins (process id).1.val) % NumBuckets ∧
    (∀ (i : Fin NumBuckets) (val : Byte),
      (alt i val).val = (i.val ^^^ jenkins val.val) % NumBuckets ∧ (alt i val).val < NumBuckets) ∧
    (∀ r : Rand, (r.Intn BucketSize (by decide)).1.val < BucketSize) := by
  have hv : (process id).1.val = (bigEndianUint64 id 0 (by decide) % 255 + 1) % 256 := rfl
  have hlt := Nat.mod_lt (bigEndianUint64 id 0 (by decide)) (show 0 < 255 by decide)
  have hval : (process id).1.val = bigEndianUint64 id 0 (by decide) % 255 + 1 := by
    rw [hv]
    omega
  refine ⟨by omega, by omega, fingerprint_ne_zero id, hval, (process id).2.1.isLt,
    (process id).2.2.isLt, rfl, fun i val => ⟨rfl, (alt i val).isLt⟩, fun r => ?_⟩
  exact (r.Intn BucketSize (by decide)).1.isLt

/-- C14: `Bucket.Insert` contract. For every bucket and nonzero byte `val`: if
some slot holds 0 then `Insert(val)` returns true and the bucket afterwards is
the original with only its first (lowest-index) zero slot replaced by `val`; if
no slot holds 0 it returns false and the bucket is unchanged. -/
theorem Bucket_Insert_contract (b : Bucket) (val : Byte) (hval : val ≠ 0) :
    ((∃ s, b s = 0) →
      ∃ s, b s = 0 ∧ (∀ t, t < s → b t ≠ 0) ∧ (b.Insert val).2 = true ∧
        (b.Insert val).1 s = val ∧ (b.Insert val).1 s ≠ 0 ∧
        ∀ t, t ≠ s → (b.Insert val).1 t = b t) ∧
    ((∀ s, b s ≠ 0) → b.Insert val = (b, false)) := by
  rcases h : b.Insert val with ⟨b1, ok⟩
  cases ok with
  | true =>
    obtain ⟨s, hs, hmin, hb1⟩ := Insert_ok h
    subst hb1
    refine ⟨fun _ => ⟨s, hs, fun t ht h0 => absurd (hmin t h0) (not_le.mpr ht), rfl, ?_, ?_, ?_⟩,
      fun hfull => absurd hs (hfull s)⟩
    · show (b.set s val) s = val
      unfold Bucket.set
      rw [if_pos rfl]
    · show (b.set s val) s ≠ 0
      unfold Bucket.set
      rw [if_pos rfl]
      exact hval
    · intro t ht
      show (b.set s val) t = b t
      unfold Bucket.set
      rw [if_neg ht]
  | false =>
    obtain ⟨hb1, hfull⟩ := Insert_fail h
    subst hb1
    exact ⟨fun ⟨s, hs⟩ => absurd hs (hfull s), fun _ => rfl⟩

theorem Bucket_Insert_contract_witness :
    gappedBucket 1 = 0 ∧ (gappedBucket.Insert 5).2 = true ∧ (gappedBucket.Insert 5).1 1 = 5 ∧
    (gappedBucket.Insert 5).1 3 = 0 ∧
    ((∃ s, gappedBucket s = 0) →
      ∃ s, gappedBucket s = 0 ∧ (∀ t, t < s → gappedBucket t ≠ 0) ∧
        (gappedBucket.Insert 5).2 = true ∧
        (gappedBucket.Insert 5).1 s = 5 ∧ (gappedBucket.Insert 5).1 s ≠ 0 ∧
        ∀ t, t ≠ s → (gappedBucket.Insert 5).1 t = gappedBucket t) :=
  ⟨by decide, by decide, by decide, by decide,
    (Bucket_Insert_contract gappedBucket 5 (by decide)).1⟩

/-- C15: `Bucket.Delete` and `Bucket.IndexOf` contract. `IndexOf(val)` is the
lowest index whose slot equals `val`, and `-1` exactly when no slot equals
`val`; `Delete(val)` returns true exactly when `IndexOf(val) > -1`, and then
only the slot at index `IndexOf(val)` is changed, to 0; otherwise it returns
false and leaves the bucket unchanged. -/
theorem Bucket_Delete_IndexOf_contract (b : Bucket) (val : Byte) :
    (∀ s : Fin BucketSize,
      b.IndexOf val = (s.val : Int) ↔ (b s = val ∧ ∀ t, t < s → b t ≠ val)) ∧
    (b.IndexOf val = -1 ↔ ∀ t, b t ≠ val) ∧
    (b.IndexOf val = -1 ∨ ∃ s : Fin BucketSize, b.IndexOf val = (s.val : Int)) ∧
    ((b.Delete val).2 = true ↔ b.IndexOf val > -1) ∧
    (b.IndexOf val > -1 →
      ∃ s : Fin BucketSize, b.IndexOf val = (s.val : Int) ∧ (b.Delete val).1 s = 0 ∧
        ∀ t, t ≠ s → (b.Delete val).1 t = b t) ∧
    (¬b.IndexOf val > -1 → b.Delete val = (b, false)) := by
  have hD : b.Delete val = (match b.firstSlot val with
      | some i => (b.set i 0, true)
      | none => (b, false)) := rfl
  have hI : b.IndexOf val = (match b.firstSlot val with
      | some i => (i.val : Int)
      | none => -1) := rfl
  cases hf : b.firstSlot val with
  | none =>
    rw [hf] at hD hI
    replace hI : b.IndexOf val = -1 := hI
    replace hD : b.Delete val = (b, false) := hD
    have hnone := firstSlot_eq_none.1 hf
    have hneg : ¬b.IndexOf val > -1 := by rw [hI]; exact lt_irrefl _
    refine ⟨fun s => ⟨fun h => ?_, fun h => absurd h.1 (hnone s)⟩, ⟨fun _ => hnone, fun _ => hI⟩,
      Or.inl hI, ⟨fun h => ?_, fun h => absurd h hneg⟩, fun h => absurd h hneg, fun _ => hD⟩
    · rw [hI] at h
      omega
    · rw [hD] at h
      exact absurd h Bool.false_ne_true
  | some i =>
    rw [hf] at hD hI
    replace hI : b.IndexOf val = (i.val : Int) := hI
    replace hD : b.Delete val = (b.set i 0, true) := hD
    obtain ⟨hi, hmin⟩ := firstSlot_eq_some.1 hf
    have hpos : b.IndexOf val > -1 := by rw [hI]; omega
    have hset0 : (b.Delete val).1 i = 0 := by
      rw [hD]
      show (b.set i 0) i = 0
      unfold Bucket.set
      rw [if_pos rfl]
    have hrest : ∀ t, t ≠ i → (b.Delete val).1 t = b t := by
      intro t ht
      rw [hD]
      show (b.set i 0) t = b t
      unfold Bucket.set
      rw [if_neg ht]
    refine ⟨fun s => ⟨fun h => ?_, fun h => ?_⟩, ⟨fun h => ?_, fun h => absurd hi (h i)⟩,
      Or.inr ⟨i, hI⟩, ⟨fun _ => hpos, fun _ => by rw [hD]⟩,
      fun _ => ⟨i, hI, hset0, hrest⟩, fun h => absurd hpos h⟩
    · rw [hI] at h
      have hs : i = s := Fin.ext (by omega)
      subst hs
      exact ⟨hi, fun t ht ht' => absurd (hmin t ht') (not_le.mpr ht)⟩
    · rw [hI]
      have h1 := hmin s h.1
      have h2 : ¬ i < s := fun hlt => h.2 i hlt hi
      have hs : i = s := le_antisymm h1 (not_lt.mp h2)
      rw [hs]
    · rw [hI] at h
      omega

/-! ## Layout of the encoding -/

theorem bytesOf_bucketsOf (buf : ByteSlice) (h : buf.len = NumBuckets * BucketSize) :
    bytesOf (bucketsOf buf h) = buf := by
  obtain ⟨len, get⟩ := buf
  have h' : len = NumBuckets * BucketSize := h
  subst h'
  unfold bytesOf bucketsOf
  refine congrArg (ByteSlice.mk (NumBuckets * BucketSize)) (funext fun i => ?_)
  refine congrArg get (Fin.ext ?_)
  show i.val / 4 * 4 + i.val % 4 = i.val
  omega

theorem CountNonzeroBytes_eq_occupied (buf : ByteSlice)
    (h : buf.len = NumBuckets * BucketSize) :
    CountNonzeroBytes buf = occupied (bucketsOf buf h) := by
  have := CountNonzeroBytes_bytesOf (bucketsOf buf h)
  rwa [bytesOf_bucketsOf] at this

theorem UnmarshalBinary_ok (buf : ByteSlice) (h : buf.len = NumBuckets * BucketSize) :
    UnmarshalBinary buf =
      .ok { Buckets := bucketsOf buf h, Count := CountNonzeroBytes buf, isUnsafe := false } := by
  unfold UnmarshalBinary
  rw [dif_neg (not_not.mpr h)]

/-- C16: flat bucket-major layout. For every filter that is not unsafe,
`MarshalBinary` returns a buffer of exactly `NumBuckets * BucketSize` bytes
whose byte at offset `k * BucketSize + s` is `f.Buckets[k][s]`; conversely, for
every buffer of that length, `UnmarshalBinary` returns a filter whose
`MarshalBinary` is the buffer again, byte for byte, and whose `Count` is the
number of nonzero bytes of the buffer. -/
theorem Marshal_layout :
    (∀ f : Filter, f.isUnsafe = false →
      ∃ out, f.MarshalBinary = .ok out ∧ out.len = NumBuckets * BucketSize ∧
        ∀ (k : Fin NumBuckets) (s : Fin BucketSize) (h : k.val * BucketSize + s.val < out.len),
          out.get ⟨k.val * BucketSize + s.val, h⟩ = f.Buckets k s) ∧
    (∀ buf : ByteSlice, buf.len = NumBuckets * BucketSize →
      ∃ f, UnmarshalBinary buf = .ok f ∧ f.MarshalBinary = .ok buf ∧
        f.Count = (Finset.univ.filter (fun i => buf.get i ≠ 0)).card) := by
  constructor
  · intro f hf
    exact ⟨bytesOf f.Buckets, Marshal_ok_of_owned f hf, rfl,
      fun k s h => bytesOf_get f.Buckets _ k s rfl⟩
  · intro buf h
    refine ⟨_, UnmarshalBinary_ok buf h, ?_, rfl⟩
    rw [Marshal_ok_of_owned _ rfl]
    exact congrArg Except.ok (bytesOf_bucketsOf buf h)

/-! ## The mixing function -/

/-- C17 fails on the code: with the 64-bit `uint` of the repository's `amd64`
target, `jenkins(1)` is `475843793027510`, which does not fit in 32 bits, while
the 32-bit Jenkins mix of `1` is `3028713910`; even its low 32 bits differ, and
the alternate bucket of bucket `0` for the fingerprint `1` (that of `idZero`)
is `33206`, where an implementation with the 32-bit mix computes `426422`. -/
theorem jenkins_not_32_bit :
    jenkins 1 = 475843793027510 ∧ jenkins32 1 = 3028713910 ∧ jenkins 1 ≠ jenkins32 1 ∧
    ¬jenkins 1 < 2 ^ 32 ∧ jenkins 1 % 2 ^ 32 ≠ jenkins32 1 ∧
    process idZero = (1, 0, alt 0 1) ∧
    (alt 0 1).val = 33206 ∧ (alt32 0 1).val = 426422 ∧ alt 0 1 ≠ alt32 0 1 ∧
    (∀ v : Byte, jenkins32 v.val < 2 ^ 32) ∧
    (∀ v : Byte, 1 ≤ v.val → jenkins v.val ≠ jenkins32 v.val) := by
  refine ⟨by decide, by decide, by decide, by decide, by decide, by decide, by decide,
    by decide, by decide, ?_, ?_⟩
  · decide
  · decide

/-- C18: the alternate-bucket map is an involution. For every bucket index `i`
and fingerprint `val`, `alt(alt(i)) = i` with `alt(i) = (i ^ jenkins(val)) %
NumBuckets`; and for every id with `process(id) = (val, a, b)`, `alt(a) = b`
and `alt(b) = a`. -/
theorem alt_involution :
    (∀ (i : Fin NumBuckets) (val : Byte), alt (alt i val) val = i) ∧
    (∀ (i : Nat) (val : Byte), i < NumBuckets →
      (((i ^^^ jenkins val.val) % NumBuckets) ^^^ jenkins val.val) % NumBuckets = i) ∧
    (∀ (id : Hash) (val : Byte) (a b : Fin NumBuckets), process id = (val, a, b) →
      alt a val = b ∧ alt b val = a) := by
  refine ⟨alt_alt, fun i val hi => xor_mod_xor_mod i (jenkins val.val) 19 hi, ?_⟩
  intro id val a b h
  rw [process_eq] at h
  injection h with hv h
  injection h with ha hb
  subst hv ha
  exact ⟨hb, by rw [← hb, alt_alt]⟩

/-! ## Count and the occupied slots -/

/-- Every call keeps `Count` equal to the number of occupied slots. -/
theorem step_occupied (s : Session) (c : Call)
    (h : s.filter.Count = occupied s.filter.Buckets) :
    (s.step c).filter.Count = occupied (s.step c).filter.Buckets := by
  have hN : NumBuckets * BucketSize = 2097152 := by decide
  have hM : uintMod = 18446744073709551616 := by decide
  cases c with
  | insert id =>
    obtain ⟨-, hT, hF⟩ := Insert_effect s.filter id s.rand
    have hle := occupied_le (s.filter.Insert id s.rand).2.1.Buckets
    show (s.filter.Insert id s.rand).2.1.Count = occupied (s.filter.Insert id s.rand).2.1.Buckets
    cases hb : (s.filter.Insert id s.rand).1 with
    | true =>
      obtain ⟨hC, hO⟩ := hT hb
      rw [hC, hM]
      omega
    | false =>
      obtain ⟨hC, hO⟩ := hF hb
      rw [hC, hO]
      exact h
  | delete id =>
    obtain ⟨-, hT, hF⟩ := Delete_effect s.filter id
    have hle := occupied_le s.filter.Buckets
    show (s.filter.Delete id).2.Count = occupied (s.filter.Delete id).2.Buckets
    cases hb : (s.filter.Delete id).1 with
    | true =>
      obtain ⟨hC, hO⟩ := hT hb
      rw [hC, hM]
      omega
    | false =>
      rw [hF hb]
      exact h
  | reset => exact occupied_zero.symm

theorem run_occupied (cs : List Call) : ∀ s : Session,
    s.filter.Count = occupied s.filter.Buckets →
    (s.run cs).filter.Count = occupied (s.run cs).filter.Buckets := by
  induction cs with
  | nil => intro s h; exact h
  | cons c cs ih =>
    intro s h
    rw [run_cons]
    exact ih _ (step_occupied s c h)

/-- C19: `Count` always equals the number of occupied slots. In every state
reached from `NewFilter()`, or from the filter `UnmarshalBinary` returns for a
buffer, by any sequence of `Insert` (successful, rejected as duplicate or
exhausted), `Delete` and `Reset` calls with any random draws, `Count` is the
number of nonzero bytes over all bucket slots. -/
theorem Count_eq_occupied :
    (∀ (cs : List Call) (r : Rand),
      ((Session.start NewFilter r).run cs).filter.Count =
        occupied ((Session.start NewFilter r).run cs).filter.Buckets) ∧
    (∀ (buf : ByteSlice) (f : Filter), UnmarshalBinary buf = .ok f →
      ∀ (cs : List Call) (r : Rand),
        ((Session.start f r).run cs).filter.Count =
          occupied ((Session.start f r).run cs).filter.Buckets) := by
  refine ⟨fun cs r => run_occupied cs _ NewFilter_counts, fun buf f hf cs r => ?_⟩
  refine run_occupied cs _ ?_
  show f.Count = occupied f.Buckets
  by_cases hl : buf.len = NumBuckets * BucketSize
  · rw [UnmarshalBinary_ok buf hl] at hf
    injection hf with hf
    rw [← hf]
    exact CountNonzeroBytes_eq_occupied buf hl
  · unfold UnmarshalBinary at hf
    rw [dif_pos hl] at hf
    exact Except.noConfusion hf

/-! ## The bytes of an id that matter -/

theorem bigEndianUint64_congr (x y : Hash) (off : Nat) (h : off + 8 ≤ 32)
    (hxy : ∀ k : Fin 32, off ≤ k.val → k.val < off + 8 → x k = y k) :
    bigEndianUint64 x off h = bigEndianUint64 y off h := by
  unfold bigEndianUint64
  rw [hxy ⟨off + 7, by omega⟩ (by show off ≤ off + 7; omega) (by show off + 7 < off + 8; omega),
    hxy ⟨off + 6, by omega⟩ (by show off ≤ off + 6; omega) (by show off + 6 < off + 8; omega),
    hxy ⟨off + 5, by omega⟩ (by show off ≤ off + 5; omega) (by show off + 5 < off + 8; omega),
    hxy ⟨off + 4, by omega⟩ (by show off ≤ off + 4; omega) (by show off + 4 < off + 8; omega),
    hxy ⟨off + 3, by omega⟩ (by show off ≤ off + 3; omega) (by show off + 3 < off + 8; omega),
    hxy ⟨off + 2, by omega⟩ (by show off ≤ off + 2; omega) (by show off + 2 < off + 8; omega),
    hxy ⟨off + 1, by omega⟩ (by show off ≤ off + 1; omega) (by show off + 1 < off + 8; omega),
    hxy ⟨off, by omega⟩ (by show off ≤ off; omega) (by show off < off + 8; omega)]

theorem fingerprint_congr (x y : Hash) (hxy : ∀ k : Fin 32, k.val < 8 → x k = y k) :
    fingerprint x = fingerprint y := by
  have h := bigEndianUint64_congr x y 0 (by decide) fun k _ hk => hxy k (by omega)
  unfold fingerprint
  exact Fin.ext (by show _ % 256 = _ % 256; rw [h])

theorem primary_congr (x y : Hash)
    (hxy : ∀ k : Fin 32, 8 ≤ k.val → k.val < 16 → x k = y k) :
    primary x = primary y := by
  have h := bigEndianUint64_congr x y 8 (by decide) fun k h1 h2 => hxy k h1 (by omega)
  unfold primary
  exact Fin.ext (by show _ % NumBuckets = _ % NumBuckets; rw [h])

/-- C20: only the first 16 bytes of an id matter. Two ids that agree on bytes
0 to 15 have the same `process` result, so `Insert` (with the same random
source), `Delete` and `Lookup` return the same result and the same state for
both on every filter; the fingerprint depends only on bytes 0 to 7 and the
primary bucket only on bytes 8 to 15. -/
theorem process_reads_first_16_bytes :
    (∀ x y : Hash, (∀ k : Fin 32, k.val < 16 → x k = y k) →
      process x = process y ∧
      (∀ (f : Filter) (r : Rand), f.Insert x r = f.Insert y r) ∧
      (∀ f : Filter, f.Delete x = f.Delete y) ∧
      (∀ f : Filter, f.Lookup x = f.Lookup y)) ∧
    (∀ x y : Hash, (∀ k : Fin 32, k.val < 8 → x k = y k) →
      (process x).1 = (process y).1) ∧
    (∀ x y : Hash, (∀ k : Fin 32, 8 ≤ k.val → k.val < 16 → x k = y k) →
      (process x).2.1 = (process y).2.1) ∧
    idZero ≠ idZeroTail ∧ process idZero = process idZeroTail := by
  have key : ∀ x y : Hash, (∀ k : Fin 32, k.val < 16 → x k = y k) → process x = process y := by
    intro x y h
    rw [process_eq, process_eq, fingerprint_congr x y fun k hk => h k (by omega),
      primary_congr x y fun k _ hk => h k hk]
  refine ⟨fun x y h => ⟨key x y h, fun f r => ?_, fun f => ?_, fun f => ?_⟩,
    fun x y h => fingerprint_congr x y h, fun x y h => primary_congr x y h, ?_,
    key _ _ (by decide)⟩
  · unfold Filter.Insert
    rw [key x y h]
  · unfold Filter.Delete
    rw [key x y h]
  · unfold Filter.Lookup
    rw [key x y h]
  · intro h
    exact absurd (congrFun h 31) (by decide)

end Cuckoo
